import Mathlib

/-!
Verification of `src/oamap/fillcolumn.py` (diana-hep/shredtypes).

The file shallow-embeds the fillable-buffer classes of `fillcolumn.py`
(`FillableList`, `FillableArray`, `FillableFile`, `FillableNumpyFile`) and the
schema-walking allocator `_makefillables`, and proves/refutes the frozen claims
about them.  Machine details:

* Python `divmod`/`%` are floor-based: embedded with `Int.fdiv` / `Int.fmod`.
* `numpy.empty` cells are uninitialized: chunk cells are `Option` values with
  `none` = never written.
* The backing file of `FillableFile` is modelled at element granularity
  (`Nat → Option Int`: slot `k` stands for bytes
  `[datapos + k*itemsize, datapos + (k+1)*itemsize)`); every seek/read/write the
  source performs on the plain file is element-aligned, so this is faithful.
  `FillableNumpyFile.flush` rewrites individual header bytes, so its model
  (`NFState`) keeps the file at byte granularity instead.
* Exceptions are explicit `Except`/`Option` results.
-/

namespace FillCol

/-- Python exceptions that the embedded code can raise.  `diverge` marks the
one spot where the source loop would not terminate (chunk size 0). -/
inductive PyErr where
  | valueError
  | indexError
  | nameError
  | zeroDivisionError
  | diverge
  deriving DecidableEq, Repr

/-- Python list indexing `xs[i]`: negative indices wrap once; out of range is
an `IndexError` (`none`). -/
def pyGet (xs : List α) (i : Int) : Option α :=
  let j : Int := if i < 0 then i + xs.length else i
  if h : 0 ≤ j ∧ j < xs.length then
    some (xs.get ⟨j.toNat, by
      have := h.2
      omega⟩)
  else
    none

/-- CPython slice semantics `xs[start:stop:step]` (`PySlice_Unpack` +
`PySlice_AdjustIndices`): `none` bounds take direction-dependent defaults,
negative bounds wrap once, everything is clamped.  `step = 0` is guarded by
the callers; here it returns `[]`. -/
def pySliceList [Inhabited α] (xs : List α) (ostart ostop : Option Int) (step : Int) :
    List α :=
  if step = 0 then [] else
  let L : Int := xs.length
  let adj : Int → Int := fun s =>
    let s := if s < 0 then s + L else s
    if s < 0 then (if step < 0 then -1 else 0)
    else if s ≥ L then (if step < 0 then L - 1 else L)
    else s
  let start := match ostart with
    | none => if step < 0 then L - 1 else 0
    | some s => adj s
  let stop := match ostop with
    | none => if step < 0 then -1 else L
    | some s => adj s
  let len : Int :=
    if step > 0 then (if stop ≤ start then 0 else (stop - start - 1) / step + 1)
    else (if start ≤ stop then 0 else (start - stop - 1) / (-step) + 1)
  (List.range len.toNat).map (fun k => xs.getD (start + k * step).toNat default)

/-- `range(a, b, 1)` and `range(a, b, -1)` over the integers (the only two
step values `FillableArray.__getitem__` uses). -/
def pyRange (a b : Int) (ascending : Bool) : List Int :=
  if ascending then (List.range (b - a).toNat).map (fun k => a + (k : Int))
  else (List.range (a - b).toNat).map (fun k => a - (k : Int))

/-- Overwrite `xs[i : i + vs.length]` with `vs` (callers guarantee the range
fits; positions past the end are dropped like Python slice assignment on a
clamped destination). -/
def setRange (xs : List α) (i : Nat) (vs : List α) : List α :=
  xs.take i ++ vs.take (xs.length - i) ++ xs.drop (i + vs.length)

/-- `setRange` never changes the length of the list it updates. -/
@[simp] theorem setRange_length (xs : List α) (i : Nat) (vs : List α) :
    (setRange xs i vs).length = xs.length := by
  simp only [setRange, List.length_append, List.length_take, List.length_drop]
  omega

/-- numpy assignment `out[i : i + src.length] = src` where the destination
slice is clamped to `out`'s length: lengths must match, except that a
length-1 source broadcasts. -/
def npAssignRange (out : List α) (i : Nat) (src : List α) :
    Except PyErr (List α) :=
  let destLen := min src.length (out.length - i)
  if destLen = src.length then .ok (setRange out i src)
  else if h : src.length = 1 then
    .ok (setRange out i (List.replicate destLen (src.get ⟨0, by omega⟩)))
  else .error .valueError

/-! ## FillableList (`fillcolumn.py` lines 135-186) -/

/-- State of a `FillableList`: the backing Python list `_data` and the
committed-length cursor `_index`. -/
structure FLState (α : Type) where
  data : List α
  index : Nat
  deriving Repr, DecidableEq

/-- `FillableList.__init__` (dtype/dims are type-level here). -/
def FLState.init (α : Type) : FLState α := ⟨[], 0⟩

/-- `FillableList.append` (lines 142-150): truncate any uncommitted tail,
append, then acknowledge. -/
def FLState.append (st : FLState α) (v : α) : FLState α :=
  let data := if st.index < st.data.length then st.data.take st.index else st.data
  ⟨data ++ [v], st.index + 1⟩

/-- `FillableList.extend` (lines 152-158). -/
def FLState.extend (st : FLState α) (vs : List α) : FLState α :=
  let data := if st.index < st.data.length then st.data.take st.index else st.data
  ⟨data ++ vs, st.index + vs.length⟩

/-- `FillableList.extend` when iterating the argument raises after yielding
`k` of its elements: CPython's `list.extend` keeps the elements already
yielded, and `self._index += len(values)` never runs. -/
def FLState.extendFail (st : FLState α) (vs : List α) (k : Nat) : FLState α :=
  let data := if st.index < st.data.length then st.data.take st.index else st.data
  ⟨data ++ vs.take k, st.index⟩

/-- `FillableList.__len__` (lines 160-161). -/
def FLState.len (st : FLState α) : Nat := st.index

/-- `FillableList.__getitem__` with a single index (line 186):
`return self._data[index]` — plain Python list indexing of `_data`. -/
def FLState.getSingle (st : FLState α) (i : Int) : Except PyErr α :=
  match pyGet st.data i with
  | some v => .ok v
  | none => .error .indexError

/-- `FillableList.__getitem__` with a slice (lines 163-183): normalize and
clamp `start`/`stop` to `len(self) = _index`, reject `step == 0`, allocate
`numpy.empty` of length `(stop - start) // step` (floor!), and assign the
Python slice of `_data` into it (`numpy` raises for a negative length and for
a source/destination length mismatch other than broadcast). -/
def FLState.getSlice [Inhabited α] (st : FLState α)
    (ostart ostop ostep : Option Int) : Except PyErr (List α) :=
  let lenself : Int := st.len
  let start := ostart.getD 0
  let stop := ostop.getD lenself
  let step := ostep.getD 1
  let start := if start < 0 then start + lenself else start
  let stop := if stop < 0 then stop + lenself else stop
  let start := min lenself (max 0 start)
  let stop := min lenself (max 0 stop)
  if step = 0 then .error .valueError
  else
    let length := Int.fdiv (stop - start) step
    if length < 0 then .error .valueError
    else
      let sl := pySliceList st.data (some start) (some stop) step
      if sl.length = length.toNat then .ok sl
      else if h : sl.length = 1 then
        .ok (List.replicate length.toNat (sl.get ⟨0, by omega⟩))
      else .error .valueError

/-- Fold `append` over a list of values, one call per element. -/
def FLState.appendN (st : FLState α) (vs : List α) : FLState α :=
  vs.foldl FLState.append st

/-! ## FillableArray (`fillcolumn.py` lines 190-304) -/

/-- State of a `FillableArray`: the list of `numpy.empty((chunksize,)+dims)`
chunks (`none` cells are uninitialized memory) and the two cursors. -/
structure FAState (α : Type) where
  chunksize : Nat
  data : List (List (Option α))
  indexinchunk : Nat
  chunkindex : Nat
  deriving Repr, DecidableEq

/-- `FillableArray.__init__` (lines 193-199): one pre-allocated chunk. -/
def FAState.init (α : Type) (chunksize : Nat) : FAState α :=
  ⟨chunksize, [List.replicate chunksize none], 0, 0⟩

/-- `FillableArray.__len__` (lines 233-234). -/
def FAState.len (st : FAState α) : Nat :=
  st.chunkindex * st.chunksize + st.indexinchunk

/-- The cell holding logical index `k`
(`self._data[k // chunksize][k % chunksize]`). -/
def FAState.cellAt (st : FAState α) (k : Nat) : Option α :=
  (st.data.getD (k / st.chunksize) []).getD (k % st.chunksize) none

/-- `while len(self._data) <= chunkindex + 1: self._data.append(empty chunk)`
in closed form: grow `data` to length at least `chunkindex + 2`. -/
def growChunks (data : List (List (Option α))) (chunkindex chunksize : Nat) :
    List (List (Option α)) :=
  data ++ List.replicate (chunkindex + 2 - data.length) (List.replicate chunksize none)

/-- `FillableArray.append` (lines 201-212): possibly open a new chunk, write
the value, acknowledge only on success (`none` = a raised `IndexError`,
possible only when `chunksize = 0` or in malformed states). -/
def FAState.append (st : FAState α) (v : α) : Option (FAState α) :=
  match st.data.get? st.chunkindex with
  | none => none
  | some chunk =>
    let (data, chunkindex, indexinchunk) :=
      if st.indexinchunk ≥ chunk.length then
        (growChunks st.data st.chunkindex st.chunksize, st.chunkindex + 1, 0)
      else (st.data, st.chunkindex, st.indexinchunk)
    match data.get? chunkindex with
    | none => none
    | some chunk =>
      if indexinchunk < chunk.length then
        some ⟨st.chunksize, data.set chunkindex (chunk.set indexinchunk (some v)),
              indexinchunk + 1, chunkindex⟩
      else none

/-- The loop of `FillableArray.extend` (lines 218-228), acting on the local
copies of the cursors.  `none` models a raised exception.  `fuel` bounds the
number of iterations, structurally; the wrapper passes a bound that the
loop's decreasing measure proves sufficient whenever the source loop
terminates, so running out of fuel (`none`) happens exactly where the source
loop would spin forever (chunk size 0 with input remaining). -/
def faExtendGo (fuel : Nat) (chunksize : Nat) (data : List (List (Option α)))
    (chunkindex indexinchunk : Nat) (values : List α) :
    Option (List (List (Option α)) × Nat × Nat) :=
  match fuel, values with
  | _, [] => some (data, chunkindex, indexinchunk)
  | 0, _ :: _ => none
  | fuel + 1, v :: vt =>
    let values := v :: vt
    match data.get? chunkindex with
    | none => none
    | some chunk =>
      let d1 := if indexinchunk ≥ chunk.length then growChunks data chunkindex chunksize else data
      let c1 := if indexinchunk ≥ chunk.length then chunkindex + 1 else chunkindex
      let i1 := if indexinchunk ≥ chunk.length then 0 else indexinchunk
      let tofill := min values.length (chunksize - i1)
      match d1.get? c1 with
      | none => none
      | some chunk2 =>
        if i1 + tofill ≤ chunk2.length then
          faExtendGo fuel chunksize
            (d1.set c1 (setRange chunk2 i1 ((values.take tofill).map some)))
            c1 (i1 + tofill) (values.drop tofill)
        else none

/-- `FillableArray.extend` (lines 214-231): run the loop on local cursors and
commit them only at the end. -/
def FAState.extend (st : FAState α) (values : List α) : Option (FAState α) :=
  (faExtendGo (2 * values.length + 2) st.chunksize st.data st.chunkindex
      st.indexinchunk values).map
    (fun r => ⟨st.chunksize, r.1, r.2.2, r.2.1⟩)

/-- Fold `append` over a list of values (each `none` result aborts). -/
def FAState.appendN (st : FAState α) (vs : List α) : Option (FAState α) :=
  vs.foldlM FAState.append st

/-- `FillableArray.__getitem__` with a single index (lines 297-304): bounds
are checked against the normalized index, but `divmod` is taken of the raw
index and the chunk list is indexed Python-style (negative wrap). -/
def FAState.getSingle (st : FAState α) (i : Int) : Except PyErr (Option α) :=
  let lenself : Int := st.len
  let normalindex := if i ≥ 0 then i else i + lenself
  if ¬ (0 ≤ normalindex ∧ normalindex < lenself) then .error .indexError
  else if st.chunksize = 0 then .error .zeroDivisionError
  else
    let chunkindex := Int.fdiv i st.chunksize
    let indexinchunk := Int.fmod i st.chunksize
    match pyGet st.data chunkindex with
    | none => .error .indexError
    | some chunk =>
      match pyGet chunk indexinchunk with
      | none => .error .indexError
      | some cell => .ok cell

/-- The chunk-walking loop of `FillableArray.__getitem__` (lines 265-293).
`outLen` is `len(out)` (constant through the loop). -/
def faSliceGo (st : FAState α) (step : Int)
    (startCi startIic stopCi2 stopIic : Int)
    (cks : List Int) (out : List (Option α)) (outi : Nat) (offset : Int) :
    Except PyErr (List (Option α)) :=
  match cks with
  | [] => .ok out
  | ck :: rest =>
    let bg : Int :=
      if step > 0 then (if ck = startCi then startIic else offset)
      else (if ck = startCi then startIic else (st.chunksize : Int) - offset)
    let en : Int :=
      if step > 0 then (if ck = stopCi2 - 1 then stopIic else (st.chunksize : Int))
      else (if ck = stopCi2 + 1 then stopIic else 0)
    match pyGet st.data ck with
    | none => .error .indexError
    | some chunk =>
      let array := pySliceList chunk (some bg) (some en) step
      let offset' := Int.fmod (en - bg) step
      match npAssignRange out outi array with
      | .error e => .error e
      | .ok out' =>
        let outi' := outi + array.length
        if outi' ≥ out'.length then .ok out'
        else faSliceGo st step startCi startIic stopCi2 stopIic rest out' outi' offset'

/-- `FillableArray.__getitem__` with a slice (lines 236-295): clamp bounds to
`len(self)`, reject `step == 0`, allocate `numpy.empty` of length
`(stop - start) // step` (floor!), then walk the chunks in step direction,
carrying the stride phase `offset = (end - begin) % step` across chunk
boundaries. -/
def FAState.getSlice (st : FAState α) (ostart ostop ostep : Option Int) :
    Except PyErr (List (Option α)) :=
  let lenself : Int := st.len
  let start := ostart.getD 0
  let stop := ostop.getD lenself
  let step := ostep.getD 1
  let start := if start < 0 then start + lenself else start
  let stop := if stop < 0 then stop + lenself else stop
  let start := min lenself (max 0 start)
  let stop := min lenself (max 0 stop)
  if step = 0 then .error .valueError
  else
    let length := Int.fdiv (stop - start) step
    if length < 0 then .error .valueError
    else if st.chunksize = 0 then .error .zeroDivisionError
    else
      let out := List.replicate length.toNat (none : Option α)
      let startCi := Int.fdiv start st.chunksize
      let startIic := Int.fmod start st.chunksize
      let stopCi := Int.fdiv stop st.chunksize
      let stopIic := Int.fmod stop st.chunksize
      let stopCi2 := if step > 0 then stopCi + 1 else stopCi - 1
      let cks := pyRange startCi stopCi2 (step > 0)
      faSliceGo st step startCi startIic stopCi2 stopIic cks out 0 0

/-! ## FillableFile (`fillcolumn.py` lines 308-419)

The plain file has no header (`_datapos = 0`), and every file access the class
performs is element-aligned, so the file is a map from element slot to the
element stored there (`none` = bytes never written) and the seek position is
counted in elements.  `staging` is the `numpy.empty((flushsize,)+dims)` buffer
`_data` (placeholder value 0 for its uninitialized cells, which are never
flushed). -/

structure FFState where
  staging : List Int
  index : Nat
  indexinchunk : Nat
  indexflushed : Nat
  file : Nat → Option Int
  pos : Nat
  fileOpen : Bool

/-- `FillableFile.__init__` + `_openfile` (lines 309-324): empty truncated
file, position 0, `flushsize` staging cells. -/
def FFState.init (flushsize : Nat) : FFState :=
  ⟨List.replicate flushsize 0, 0, 0, 0, fun _ => none, 0, true⟩

/-- Write the elements `vs` at slots `[p, p + vs.length)`. -/
def writeElems (f : Nat → Option Int) (p : Nat) (vs : List Int) : Nat → Option Int :=
  fun k => if p ≤ k ∧ k < p + vs.length then some (vs.getD (k - p) 0) else f k

/-- `FillableFile.flush` (lines 368-371): write the staged prefix at the
*current* file position (the source does not seek), reset the staging cursor.
Writing to a closed handle raises `ValueError`. -/
def FFState.flushPy (st : FFState) : FFState × Except PyErr Unit :=
  if st.fileOpen then
    ({ st with file := writeElems st.file st.pos (st.staging.take st.indexinchunk),
               pos := st.pos + st.indexinchunk,
               indexinchunk := 0,
               indexflushed := st.index }, .ok ())
  else (st, .error .valueError)

/-- `FillableFile.__len__` (lines 373-374). -/
def FFState.len (st : FFState) : Nat := st.index

/-- `FillableFile.append` (lines 334-343): stage the value, acknowledge, and
flush if the staging chunk is now full.  Writing past the staging buffer
(`_indexinchunk ≥ flushsize`) raises `IndexError` before any mutation. -/
def FFState.appendPy (st : FFState) (v : Int) : FFState × Except PyErr Unit :=
  if st.indexinchunk < st.staging.length then
    let st' : FFState :=
      { st with staging := st.staging.set st.indexinchunk v,
                index := st.index + 1,
                indexinchunk := st.indexinchunk + 1 }
    if st'.indexinchunk ≥ st'.staging.length then st'.flushPy else (st', .ok ())
  else (st, .error .indexError)

/-- The loop of `FillableFile.extend` (lines 351-362) on the local cursor
copies.  `values` elements are `Option Int`: `none` is a value whose dtype
conversion fails, making `self._data[...] = values[:tofill]` raise before
mutating the staging buffer (numpy converts the source first).  The function
returns the mutated `(staging, file, pos)` plus either the final local
cursors or the raised error — `self._index`/`_indexinchunk`/`_indexflushed`
are only assigned after the loop, so on an error they keep their old values. -/
def ffExtendGo (fuel : Nat) (fileOpen : Bool) (staging : List Int)
    (file : Nat → Option Int) (pos : Nat) (index indexinchunk indexflushed : Nat)
    (values : List (Option Int)) :
    (List Int × (Nat → Option Int) × Nat) × Except PyErr (Nat × Nat × Nat) :=
  match fuel, values with
  | _, [] => ((staging, file, pos), .ok (index, indexinchunk, indexflushed))
  | 0, _ :: _ =>
    -- the wrapper's fuel is sufficient whenever the source loop terminates
    -- (its measure decreases every iteration); exhaustion marks the one
    -- genuinely diverging family of states (flushsize 0, input remaining)
    ((staging, file, pos), .error .diverge)
  | fuel + 1, v :: vt =>
    let values := v :: vt
    let tofill := min values.length (staging.length - indexinchunk)
    let seg := values.take tofill
    if seg.any (fun o => o.isNone) then
      ((staging, file, pos), .error .valueError)
    else
      let staging' := setRange staging indexinchunk (seg.map (fun o => o.getD 0))
      let index' := index + tofill
      let indexinchunk' := indexinchunk + tofill
      let rest := values.drop tofill
      if rest.length = 0 then
        ((staging', file, pos), .ok (index', indexinchunk', indexflushed))
      else
        -- `self._file.seek(self._datapos + indexflushed*itemsize)` then
        -- `self._file.write(self._data[:indexinchunk].tostring())`
        if fileOpen then
          ffExtendGo fuel fileOpen staging'
            (writeElems file indexflushed (staging'.take indexinchunk'))
            (indexflushed + indexinchunk') index' 0 index' rest
        else ((staging', file, pos), .error .valueError)

/-- `FillableFile.extend` (lines 345-366). -/
def FFState.extendPy (st : FFState) (values : List (Option Int)) :
    FFState × Except PyErr Unit :=
  match ffExtendGo (2 * values.length + 2) st.fileOpen st.staging st.file st.pos
      st.index st.indexinchunk st.indexflushed values with
  | ((staging, file, pos), .ok (index, indexinchunk, indexflushed)) =>
      ({ st with staging := staging, file := file, pos := pos, index := index,
                 indexinchunk := indexinchunk, indexflushed := indexflushed }, .ok ())
  | ((staging, file, pos), .error e) =>
      ({ st with staging := staging, file := file, pos := pos }, .error e)

/-- `FillableFile.__getitem__` with a single index (lines 387-405): after the
initial flush-if-open, line 389 evaluates the unbound name `index` — the
parameter is called `value` — so Python raises `NameError` unconditionally,
for any index and regardless of whether the handle is open. -/
def FFState.getSinglePy (st : FFState) (i : Int) : FFState × Except PyErr Int :=
  let st := if st.fileOpen then (st.flushPy).1 else st
  (st, .error .nameError)

/-- `FillableFile.__getitem__` with a slice (lines 376-385): flush if the
handle is open, `numpy.memmap` the data region with `len(self)` elements
(`mmap` of an empty file raises `ValueError`), return the whole array for
`[:]`, otherwise its numpy (= Python) sub-slice; a zero step raises
`ValueError` inside numpy. -/
def FFState.getSlicePy (st : FFState) (ostart ostop ostep : Option Int) :
    FFState × Except PyErr (List (Option Int)) :=
  let st := if st.fileOpen then (st.flushPy).1 else st
  if st.index = 0 then (st, .error .valueError)
  else
    let array := (List.range st.index).map st.file
    match ostart, ostop, ostep with
    | none, none, none => (st, .ok array)
    | _, _, _ =>
      let step := ostep.getD 1
      if step = 0 then (st, .error .valueError)
      else (st, .ok (pySliceList array ostart ostop step))

/-- `FillableFile.close` (lines 407-410): `hasattr(self, "_file")` holds once
construction finished, so `close` always flushes and then closes the handle;
on an already-closed handle the flush's write raises `ValueError`. -/
def FFState.closePy (st : FFState) : FFState × Except PyErr Unit :=
  match st.flushPy with
  | (st', .ok _) => ({ st' with fileOpen := false }, .ok ())
  | (st', .error e) => (st', .error e)

/-- Fold `append` over a list of values; stops at the first raised error. -/
def FFState.appendN (st : FFState) (vs : List Int) : FFState × Except PyErr Unit :=
  match vs with
  | [] => (st, .ok ())
  | v :: rest =>
    match st.appendPy v with
    | (st', .ok _) => st'.appendN rest
    | (st', .error e) => (st', .error e)

/-- The committed elements of a file-backed fillable as stored: the flushed
slots of the file followed by the staged prefix. -/
def FFState.elems (st : FFState) : List Int :=
  ((List.range st.indexflushed).map (fun k => (st.file k).getD 0)) ++
    st.staging.take st.indexinchunk

/-! ## FillableNumpyFile (`fillcolumn.py` lines 423-451)

Its `flush` override rewrites individual header bytes, so this model keeps the
file at byte granularity; elements are serialized little-endian two's
complement (`numpy` native layout for integer dtypes).  The header written by
`_openfile` is
`magic(8) ++ headerlen(2) ++ header1 ++ count(lendigits) ++ header2tail`,
where `header1` is the descriptor text up to the shape's first component and
`header2tail` is the rest of the shape text plus the alignment padding — the
model keeps only their lengths, since `flush` never touches their bytes. -/

structure NFState where
  itemsize : Nat
  lendigits : Nat
  header1len : Nat
  header2taillen : Nat
  file : Nat → Nat
  index : Nat
  indexinchunk : Nat
  indexflushed : Nat
  staging : List Int

/-- `self._lenpos = len(magic) + 2 + len(header1)` (line 432). -/
def NFState.lenpos (st : NFState) : Nat := 8 + 2 + st.header1len

/-- `self._datapos = len(magic) + 2 + len(header1) + len(header2)` (line 433),
with `len(header2) = lendigits + header2taillen`. -/
def NFState.datapos (st : NFState) : Nat :=
  st.lenpos + st.lendigits + st.header2taillen

/-- ASCII digits of `n`, most significant first (`"0"` for zero), as byte
values. -/
def natDigits (n : Nat) : List Nat :=
  if h : n < 10 then [48 + n]
  else natDigits (n / 10) ++ [48 + n % 10]
  termination_by n
  decreasing_by
    exact Nat.div_lt_self (by omega) (by omega)

/-- Python `"{0:Nd}".format(n)`: decimal digits right-aligned in a field of
`width` spaces (wider output if `n` needs more digits). -/
def pyFormatD (width n : Nat) : List Nat :=
  List.replicate (width - (natDigits n).length) 32 ++ natDigits n

/-- Recover the count from the fixed-width field: skip the space padding,
read the decimal digits. -/
def parseCountField (bs : List Nat) : Nat :=
  (bs.dropWhile (fun b => b = 32)).foldl (fun a b => a * 10 + (b - 48)) 0

/-- Overwrite file bytes `[p, p + bs.length)` with `bs`. -/
def writeBytes (f : Nat → Nat) (p : Nat) (bs : List Nat) : Nat → Nat :=
  fun k => if p ≤ k ∧ k < p + bs.length then bs.getD (k - p) 0 else f k

/-- Read `n` file bytes starting at `p`. -/
def readBytes (f : Nat → Nat) (p n : Nat) : List Nat :=
  (List.range n).map (fun j => f (p + j))

/-- Little-endian two's-complement byte serialization of one element. -/
def encElem (itemsize : Nat) (v : Int) : List Nat :=
  (List.range itemsize).map (fun j => ((v.emod ((2 : Int) ^ (8 * itemsize))).toNat / 256 ^ j) % 256)

/-- `FillableNumpyFile.flush` (lines 445-451): seek to
`datapos + indexflushed*itemsize` and write the staged bytes, seek to
`lenpos` and rewrite the count field with the current `index`, then reset the
staging cursors. -/
def NFState.flushN (st : NFState) : NFState :=
  let staged := (st.staging.take st.indexinchunk).flatMap (encElem st.itemsize)
  let f1 := writeBytes st.file (st.datapos + st.indexflushed * st.itemsize) staged
  let f2 := writeBytes f1 st.lenpos (pyFormatD st.lendigits st.index)
  { st with file := f2, indexinchunk := 0, indexflushed := st.index }

/-! ## Schema-walking allocator (`fillcolumn.py` lines 61-131)

`oamap.generator` is outside `src/`.  Modelled from the spec: schema nodes
are a closed tagged-variant tree — primitive (dtype/dims possibly unset),
list (start/stop offset keys + content), union (tags/offsets keys +
possibilities), record (named fields), tuple (ordered slots), pointer
(positions key, internal flag, target), each optionally carrying a validity
mask key (spec section 6); the recursive walk itself is translated from
`_makefillables` in the source. -/

/-- Element type descriptors: the mask fillable uses `numpy.bool_`, other
storage uses the node's own dtype. -/
inductive GDtype where
  | boolDt
  | intDt (bytes : Nat)
  | floatDt (bytes : Nat)
  deriving DecidableEq, Repr

/-- Schema-tree nodes, as the spec's external-collaborator interface
describes them.  An internal (self-referential) pointer carries no target
here, matching the walk never descending into one. -/
inductive Gen where
  | prim (mask : Option String) (data : String)
      (dtype : Option GDtype) (dims : Option (List Nat))
  | list (mask : Option String) (starts stops : String) (dtype : GDtype)
      (content : Gen)
  | union (mask : Option String) (tags offsets : String) (dtype : GDtype)
      (possibilities : List Gen)
  | record (mask : Option String) (fields : List (String × Gen))
  | tuple (mask : Option String) (types : List Gen)
  | pointer (mask : Option String) (positions : String) (dtype : GDtype)
      (target : Option Gen)
  deriving Repr

/-- The optional mask key of a node (`isinstance(generator, Masked)`). -/
def Gen.maskOf : Gen → Option String
  | .prim m _ _ _ => m
  | .list m _ _ _ _ => m
  | .union m _ _ _ _ => m
  | .record m _ => m
  | .tuple m _ => m
  | .pointer m _ _ _ => m

/-- What the factory receives for one storage node: `(dtype, dims)`. -/
abbrev FSpec := GDtype × List Nat

/-- Python dict assignment `fillables[name] = ...`: replace an existing key
or append a new one. -/
def dictInsert (m : List (String × FSpec)) (k : String) (v : FSpec) :
    List (String × FSpec) :=
  if m.any (fun p => p.1 = k) then
    m.map (fun p => if p.1 = k then (k, v) else p)
  else m ++ [(k, v)]

mutual

/-- `_makefillables` (lines 61-99): register a mask fillable when the node is
masked, then dispatch on the node kind, recursing into substructure.  `none`
models the `ValueError` raised for a primitive with unset dtype or dims. -/
def makefillables (g : Gen) (liststarts unionoffsets : Bool)
    (fillables : List (String × FSpec)) : Option (List (String × FSpec)) :=
  let fillables := match g.maskOf with
    | some m => dictInsert fillables m (GDtype.boolDt, [])
    | none => fillables
  match g with
  | .prim _ data dtype dims => do
      let dt ← dtype
      let dm ← dims
      pure (dictInsert fillables data (dt, dm))
  | .list _ starts stops dtype content =>
      let fillables := if liststarts then dictInsert fillables starts (dtype, []) else fillables
      let fillables := dictInsert fillables stops (dtype, [])
      makefillables content liststarts unionoffsets fillables
  | .union _ tags offsets dtype possibilities =>
      let fillables := dictInsert fillables tags (dtype, [])
      let fillables := if unionoffsets then dictInsert fillables offsets (dtype, []) else fillables
      makefillablesMany possibilities liststarts unionoffsets fillables
  | .record _ fields =>
      makefillablesFields fields liststarts unionoffsets fillables
  | .tuple _ types =>
      makefillablesMany types liststarts unionoffsets fillables
  | .pointer _ positions dtype target =>
      let fillables := dictInsert fillables positions (dtype, [])
      match target with
      | some t => makefillables t liststarts unionoffsets fillables
      | none => some fillables

/-- The `for possibility in ...` / `for field in generator.types` loops of
`_makefillables`, threading the shared dict. -/
def makefillablesMany (gs : List Gen) (liststarts unionoffsets : Bool)
    (fillables : List (String × FSpec)) : Option (List (String × FSpec)) :=
  match gs with
  | [] => some fillables
  | g :: rest =>
    match makefillables g liststarts unionoffsets fillables with
    | none => none
    | some fb => makefillablesMany rest liststarts unionoffsets fb

/-- The `for field in generator.fields.values()` loop of `_makefillables`. -/
def makefillablesFields (fs : List (String × Gen)) (liststarts unionoffsets : Bool)
    (fillables : List (String × FSpec)) : Option (List (String × FSpec)) :=
  match fs with
  | [] => some fillables
  | f :: rest =>
    match makefillables f.2 liststarts unionoffsets fillables with
    | none => none
    | some fb => makefillablesFields rest liststarts unionoffsets fb

end

/-! ## Invariants -/

/-- Well-formedness of a live `FillableFile` whose committed contents are
`xs`: the counters satisfy `indexflushed + indexinchunk = index`, the file
holds exactly the first `indexflushed` committed elements (and nothing
beyond), the staged prefix holds the rest, and the seek position sits at the
flushed boundary (`flush` relies on this, since it writes without seeking). -/
def FFinv (st : FFState) (xs : List Int) : Prop :=
  st.fileOpen = true ∧
  st.index = xs.length ∧
  st.indexflushed + st.indexinchunk = st.index ∧
  st.indexinchunk ≤ st.staging.length ∧
  st.pos = st.indexflushed ∧
  (∀ k, k < st.indexflushed → st.file k = some (xs.getD k 0)) ∧
  (∀ k, st.indexflushed ≤ k → st.file k = none) ∧
  st.staging.take st.indexinchunk = xs.drop st.indexflushed

/-- Well-formedness of a `FillableArray` whose committed contents are `xs`:
exactly `chunkindex + 1` allocated chunks of `chunksize` cells each, the
in-chunk cursor within bounds, and cell `k` holding the `k`-th committed
element for every `k < len`. -/
def FAinv (st : FAState α) (xs : List α) : Prop :=
  st.data.length = st.chunkindex + 1 ∧
  (∀ c ∈ st.data, c.length = st.chunksize) ∧
  st.indexinchunk ≤ st.chunksize ∧
  st.len = xs.length ∧
  (∀ k, k < xs.length → st.cellAt k = xs[k]?)

/-! ## Lemmas about FillableList -/

theorem FLState.append_clean (st : FLState α) (v : α) (h : st.index = st.data.length) :
    st.append v = ⟨st.data ++ [v], st.index + 1⟩ := by
  simp [FLState.append, h]

theorem FLState.extend_clean (st : FLState α) (vs : List α) (h : st.index = st.data.length) :
    st.extend vs = ⟨st.data ++ vs, st.index + vs.length⟩ := by
  simp [FLState.extend, h]

theorem FLState.appendN_clean (xs : List α) :
    ∀ (st : FLState α), st.index = st.data.length →
      st.appendN xs = ⟨st.data ++ xs, st.index + xs.length⟩ := by
  induction xs with
  | nil => intro st h; simp [FLState.appendN]
  | cons x xt ih =>
    intro st h
    have h1 : st.appendN (x :: xt) = (st.append x).appendN xt := by
      simp [FLState.appendN]
    rw [h1, FLState.append_clean st x h, ih _ (by simp [h])]
    simp
    omega

theorem FLState.getSingle_nat (st : FLState α) (k : Nat) (hk : k < st.data.length) :
    st.getSingle k = .ok (st.data.get ⟨k, hk⟩) := by
  have h0 : ¬ ((k : Int) < 0) := by omega
  simp only [FLState.getSingle, pyGet, h0, if_false]
  have h1 : 0 ≤ (k : Int) ∧ (k : Int) < st.data.length := by
    constructor <;> omega
  rw [dif_pos h1]
  simp

/-- Run of the C2 scenario on a list-backed fillable: `n` appends then one
extend leave exactly the inputs in order with the right committed length. -/
theorem flRun_spec (xs ys : List α) :
    ((FLState.init α).appendN xs).extend ys = ⟨xs ++ ys, xs.length + ys.length⟩ := by
  rw [FLState.appendN_clean xs (FLState.init α) rfl]
  rw [FLState.extend_clean _ ys (by simp [FLState.init])]
  simp [FLState.init]

/-! ## List helper lemmas -/

theorem mapSome_getD_cancel (l : List Int) :
    (l.map some).map (fun o => o.getD 0) = l := by
  induction l with
  | nil => rfl
  | cons a t ih => simp only [List.map_cons, Option.getD_some, ih]

theorem take_mapSome_noneFree (l : List Int) (t : Nat) :
    ((l.map some).take t).any (fun o => o.isNone) = false := by
  rw [List.any_eq_false]
  intro x hx
  have h2 := List.mem_of_mem_take hx
  rw [List.mem_map] at h2
  obtain ⟨y, _, rfl⟩ := h2
  simp

theorem getD_drop_add (l : List α) (i j : Nat) (d : α) :
    (l.drop i).getD j d = l.getD (i + j) d := by
  simp [List.getD_eq_getElem?_getD, List.getElem?_drop]

theorem setRange_take_eq (xs : List α) (i : Nat) (vs : List α)
    (h : i + vs.length ≤ xs.length) :
    (setRange xs i vs).take (i + vs.length) = xs.take i ++ vs := by
  have hvt : vs.take (xs.length - i) = vs := List.take_of_length_le (by omega)
  rw [setRange, hvt]
  apply List.take_left'
  simp only [List.length_append, List.length_take]
  omega

theorem set_take_succ_eq (xs : List α) (i : Nat) (v : α) (h : i < xs.length) :
    (xs.set i v).take (i + 1) = xs.take i ++ [v] := by
  rw [List.set_eq_take_append_cons_drop, if_pos h, List.append_cons]
  apply List.take_left'
  simp only [List.length_append, List.length_take, List.length_cons, List.length_nil]
  omega

theorem writeElems_in (f : Nat → Option Int) (p : Nat) (vs : List Int) (k : Nat)
    (h1 : p ≤ k) (h2 : k < p + vs.length) :
    writeElems f p vs k = some (vs.getD (k - p) 0) := by
  simp only [writeElems]
  rw [if_pos ⟨h1, h2⟩]

theorem writeElems_out (f : Nat → Option Int) (p : Nat) (vs : List Int) (k : Nat)
    (h : k < p ∨ p + vs.length ≤ k) :
    writeElems f p vs k = f k := by
  simp only [writeElems]
  rw [if_neg (by omega)]

theorem rangeMap_eq_mapSome (n : Nat) (f : Nat → Option Int) (xs : List Int)
    (hn : n = xs.length) (h : ∀ k, k < n → f k = some (xs.getD k 0)) :
    (List.range n).map f = xs.map some := by
  apply List.ext_get (by simp [hn])
  intro i h1 h2
  simp only [List.length_map, List.length_range] at h1
  rw [List.get_map, List.get_map, List.get_range]
  rw [h i h1]
  congr 1
  rw [List.getD_eq_getElem?_getD, List.getElem?_eq_getElem (by omega)]
  simp

/-! ## FillableFile lemmas -/

theorem ffFlush_inv (st : FFState) (xs : List Int) (h : FFinv st xs) :
    (st.flushPy).2 = .ok () ∧ FFinv (st.flushPy).1 xs ∧
    (st.flushPy).1.staging.length = st.staging.length ∧
    (st.flushPy).1.indexinchunk = 0 ∧
    (st.flushPy).1.indexflushed = st.index := by
  obtain ⟨hopen, hidx, hcnt, hic, hpos, hfl, hfh, hstg⟩ := h
  have hlt : (st.staging.take st.indexinchunk).length = st.indexinchunk := by
    simp only [List.length_take]
    omega
  have hres : st.flushPy =
      ({ st with file := writeElems st.file st.pos (st.staging.take st.indexinchunk),
                 pos := st.pos + st.indexinchunk,
                 indexinchunk := 0,
                 indexflushed := st.index }, .ok ()) := by
    simp only [FFState.flushPy, hopen, if_true]
  rw [hres]
  refine ⟨rfl, ⟨hopen, hidx, ?_, ?_, ?_, ?_, ?_, ?_⟩, rfl, rfl, rfl⟩
  · show st.index + 0 = st.index
    omega
  · show 0 ≤ st.staging.length
    omega
  · show st.pos + st.indexinchunk = st.index
    omega
  · intro k hk
    have hk' : k < st.index := hk
    show writeElems st.file st.pos (st.staging.take st.indexinchunk) k = _
    by_cases hcase : st.pos ≤ k
    · rw [writeElems_in _ _ _ _ hcase (by omega)]
      rw [hstg, getD_drop_add]
      congr 2
      omega
    · rw [writeElems_out _ _ _ _ (by omega)]
      exact hfl k (by omega)
  · intro k hk
    have hk' : st.index ≤ k := hk
    show writeElems st.file st.pos (st.staging.take st.indexinchunk) k = none
    rw [writeElems_out _ _ _ _ (by omega)]
    exact hfh k (by omega)
  · show st.staging.take 0 = xs.drop st.index
    simp only [List.take_zero]
    rw [hidx, List.drop_length]

theorem ffAppend_inv (st : FFState) (xs : List Int) (v : Int) (h : FFinv st xs)
    (hroom : st.indexinchunk < st.staging.length) :
    (st.appendPy v).2 = .ok () ∧ FFinv (st.appendPy v).1 (xs ++ [v]) ∧
    (st.appendPy v).1.staging.length = st.staging.length ∧
    (st.appendPy v).1.indexinchunk < (st.appendPy v).1.staging.length := by
  obtain ⟨hopen, hidx, hcnt, hic, hpos, hfl, hfh, hstg⟩ := h
  have hinv' : FFinv
      { st with staging := st.staging.set st.indexinchunk v,
                index := st.index + 1,
                indexinchunk := st.indexinchunk + 1 } (xs ++ [v]) := by
    refine ⟨hopen, ?_, ?_, ?_, hpos, ?_, hfh, ?_⟩
    · show st.index + 1 = (xs ++ [v]).length
      simp [hidx]
    · show st.indexflushed + (st.indexinchunk + 1) = st.index + 1
      omega
    · show st.indexinchunk + 1 ≤ (st.staging.set st.indexinchunk v).length
      simp only [List.length_set]
      omega
    · intro k hk
      have hk' : k < st.indexflushed := hk
      rw [List.getD_append _ _ _ _ (by omega)]
      exact hfl k hk'
    · show (st.staging.set st.indexinchunk v).take (st.indexinchunk + 1) =
        (xs ++ [v]).drop st.indexflushed
      rw [set_take_succ_eq _ _ _ hroom, hstg]
      rw [List.drop_append_of_le_length (by omega)]
  have hstep : st.appendPy v =
      (if st.indexinchunk + 1 ≥ (st.staging.set st.indexinchunk v).length then
        ({ st with staging := st.staging.set st.indexinchunk v,
                   index := st.index + 1,
                   indexinchunk := st.indexinchunk + 1 } : FFState).flushPy
      else ({ st with staging := st.staging.set st.indexinchunk v,
                      index := st.index + 1,
                      indexinchunk := st.indexinchunk + 1 }, .ok ())) := by
    simp only [FFState.appendPy, if_pos hroom]
  rw [hstep]
  by_cases hfull : st.indexinchunk + 1 ≥ (st.staging.set st.indexinchunk v).length
  · rw [if_pos hfull]
    have hres := ffFlush_inv _ _ hinv'
    refine ⟨hres.1, hres.2.1, ?_, ?_⟩
    · rw [hres.2.2.1]
      simp
    · rw [hres.2.2.2.1, hres.2.2.1]
      show 0 < (st.staging.set st.indexinchunk v).length
      simp only [List.length_set]
      omega
  · rw [if_neg hfull]
    refine ⟨rfl, hinv', by simp, ?_⟩
    show st.indexinchunk + 1 < (st.staging.set st.indexinchunk v).length
    simp only [List.length_set] at hfull ⊢
    omega

theorem ffAppendN_inv (vs : List Int) : ∀ (st : FFState) (xs : List Int),
    FFinv st xs → st.indexinchunk < st.staging.length →
    (st.appendN vs).2 = .ok () ∧ FFinv (st.appendN vs).1 (xs ++ vs) ∧
    (st.appendN vs).1.staging.length = st.staging.length ∧
    (st.appendN vs).1.indexinchunk < (st.appendN vs).1.staging.length := by
  induction vs with
  | nil => intro st xs h hroom; simpa [FFState.appendN] using ⟨h, hroom⟩
  | cons v vt ih =>
    intro st xs h hroom
    obtain ⟨hok, hinv, hlen, hroom'⟩ := ffAppend_inv st xs v h hroom
    have h1 : st.appendN (v :: vt) = (st.appendPy v).1.appendN vt := by
      simp only [FFState.appendN]
      rcases hpv : st.appendPy v with ⟨s1, e1⟩
      rw [hpv] at hok
      cases e1 with
      | ok u => rfl
      | error e => simp at hok
    rw [h1]
    obtain ⟨a1, a2, a3, a4⟩ := ih (st.appendPy v).1 (xs ++ [v]) hinv hroom'
    refine ⟨a1, by simpa using a2, by rw [a3, hlen], a4⟩

theorem take_mapSome_getD (l : List Int) (t : Nat) :
    ((l.map some).take t).map (fun o => o.getD 0) = l.take t := by
  rw [← List.map_take, mapSome_getD_cancel]

theorem drop_mapSome (l : List Int) (t : Nat) :
    (l.map some).drop t = (l.drop t).map some := by
  simp [List.map_drop]

theorem ffExtendGo_ok : ∀ (fuel : Nat) (vs xs staging : List Int)
    (file : Nat → Option Int) (inchunk flushed : Nat),
    0 < staging.length →
    inchunk ≤ staging.length →
    flushed + inchunk = xs.length →
    (∀ k, k < flushed → file k = some (xs.getD k 0)) →
    (∀ k, flushed ≤ k → file k = none) →
    staging.take inchunk = xs.drop flushed →
    2 * vs.length + (if staging.length ≤ inchunk then 1 else 0) + 1 ≤ fuel →
    ∃ staging' file' inchunk' flushed',
      ffExtendGo fuel true staging file flushed xs.length inchunk flushed (vs.map some) =
        ((staging', file', flushed'), .ok (xs.length + vs.length, inchunk', flushed')) ∧
      staging'.length = staging.length ∧
      inchunk' ≤ staging'.length ∧
      flushed' + inchunk' = xs.length + vs.length ∧
      (∀ k, k < flushed' → file' k = some ((xs ++ vs).getD k 0)) ∧
      (∀ k, flushed' ≤ k → file' k = none) ∧
      staging'.take inchunk' = (xs ++ vs).drop flushed' := by
  intro fuel
  induction fuel with
  | zero =>
    intro vs xs staging file inchunk flushed h1 h2 h3 h4 h5 h6 hfuel
    exfalso
    by_cases hca : staging.length ≤ inchunk <;> simp only [hca, if_true, if_false] at hfuel <;> omega
  | succ f ih =>
    intro vs xs staging file inchunk flushed h1 h2 h3 h4 h5 h6 hfuel
    cases vs with
    | nil =>
      refine ⟨staging, file, inchunk, flushed, ?_, rfl, h2, by simp; omega, ?_, h5, ?_⟩
      · show ffExtendGo (f + 1) true staging file flushed xs.length inchunk flushed [] = _
        simp [ffExtendGo]
      · simpa using h4
      · simpa using h6
    | cons v vt =>
      have hL : ((v :: vt).map some).length = vt.length + 1 := by simp
      by_cases hAB : vt.length + 1 ≤ staging.length - inchunk
      · -- everything fits in the staging buffer: one iteration, no flush
        have htf : min (vt.length + 1) (staging.length - inchunk) = vt.length + 1 :=
          min_eq_left hAB
        refine ⟨setRange staging inchunk (v :: vt), file, inchunk + (vt.length + 1),
          flushed, ?_, by simp, ?_, by simp; omega, ?_, h5, ?_⟩
        · show ffExtendGo (f + 1) true staging file flushed xs.length inchunk flushed
            (some v :: vt.map some) = _
          simp only [ffExtendGo]
          have hseg := take_mapSome_noneFree (v :: vt)
            (min (some v :: vt.map some).length (staging.length - inchunk))
          simp only [List.map_cons] at hseg
          rw [hseg]
          simp only [Bool.false_eq_true, if_false, List.length_cons, List.length_map]
          rw [htf]
          have hdrop : ((some v :: vt.map some).drop (vt.length + 1)).length = 0 := by
            simp
          rw [if_pos (by simpa using hdrop)]
          have hmap : ((some v :: vt.map some).take (vt.length + 1)).map
              (fun o => o.getD 0) = v :: vt := by
            have := take_mapSome_getD (v :: vt) (vt.length + 1)
            simp only [List.map_cons] at this
            rw [this]
            exact List.take_of_length_le (by simp)
          rw [hmap]
        · simp only [setRange_length]
          omega
        · intro k hk
          rw [List.getD_append _ _ _ _ (by omega)]
          exact h4 k hk
        · have hle : inchunk + (vt.length + 1) ≤ staging.length := by omega
          have := setRange_take_eq staging inchunk (v :: vt) (by simpa using hle)
          simp only [List.length_cons] at this
          rw [this, h6]
          rw [List.drop_append_of_le_length (by omega)]
      · -- the staging buffer fills: flush inside the loop and recurse
        push_neg at hAB
        have htf : min (vt.length + 1) (staging.length - inchunk) =
            staging.length - inchunk := min_eq_right (by omega)
        set R := staging.length - inchunk with hR
        have hRle : R ≤ vt.length + 1 := by omega
        have htklen : ((v :: vt).take R).length = R := by
          simp only [List.length_take, List.length_cons]
          omega
        set staging1 := setRange staging inchunk ((v :: vt).take R) with hstaging1
        have hstaging1len : staging1.length = staging.length := setRange_length _ _ _
        have hstake : staging1.take (inchunk + R) = staging.take inchunk ++ (v :: vt).take R := by
          have := setRange_take_eq staging inchunk ((v :: vt).take R) (by omega)
          rw [htklen] at this
          exact this
        set xs1 := xs ++ (v :: vt).take R with hxs1
        have hxs1len : xs1.length = xs.length + R := by
          simp only [hxs1, List.length_append, htklen]
        have hxs1drop : xs1.drop flushed = xs.drop flushed ++ (v :: vt).take R :=
          List.drop_append_of_le_length (by omega)
        have hstake2 : staging1.take (inchunk + R) = xs1.drop flushed := by
          rw [hstake, h6, hxs1drop]
        set file1 := writeElems file flushed (staging1.take (inchunk + R)) with hfile1
        have hWlen : (staging1.take (inchunk + R)).length = inchunk + R := by
          simp only [List.length_take, hstaging1len]
          omega
        have hfl1 : ∀ k, k < xs1.length → file1 k = some (xs1.getD k 0) := by
          intro k hk
          by_cases hcase : flushed ≤ k
          · rw [hfile1, writeElems_in _ _ _ _ hcase (by omega)]
            rw [hstake2, getD_drop_add]
            congr 2
            omega
          · rw [hfile1, writeElems_out _ _ _ _ (by omega)]
            rw [List.getD_append _ _ _ _ (by omega)]
            exact h4 k (by omega)
        have hfh1 : ∀ k, xs1.length ≤ k → file1 k = none := by
          intro k hk
          rw [hfile1, writeElems_out _ _ _ _ (by omega)]
          exact h5 k (by omega)
        have hfuel1 : 2 * ((v :: vt).drop R).length +
            (if staging1.length ≤ 0 then 1 else 0) + 1 ≤ f := by
          have hd : ((v :: vt).drop R).length = vt.length + 1 - R := by
            simp only [List.length_drop, List.length_cons]
          rw [hd]
          have hpos1 : ¬ staging1.length ≤ 0 := by omega
          rw [if_neg hpos1]
          simp only [List.length_cons] at hfuel
          by_cases hfull : staging.length ≤ inchunk
          · rw [if_pos hfull] at hfuel
            omega
          · rw [if_neg hfull] at hfuel
            omega
        obtain ⟨stg2, fl2, ic2, fd2, heq, hlen2, hic2, hcnt2, hfile2, hnone2, hstg2⟩ :=
          ih ((v :: vt).drop R) xs1 staging1 file1 0 xs1.length
            (by omega) (by omega) (by omega) hfl1 hfh1
            (by simp [List.drop_length]) hfuel1
        have hxs2 : xs1 ++ (v :: vt).drop R = xs ++ v :: vt := by
          rw [hxs1, List.append_assoc, List.take_append_drop]
        have harith : xs1.length + ((v :: vt).drop R).length = xs.length + (vt.length + 1) := by
          simp only [List.length_drop, List.length_cons, hxs1len]
          omega
        rw [hxs2] at hfile2 hstg2
        rw [harith] at heq hcnt2
        refine ⟨stg2, fl2, ic2, fd2, ?_, by rw [hlen2, hstaging1len], hic2,
          by simpa using hcnt2, by simpa using hfile2, hnone2, by simpa using hstg2⟩
        show ffExtendGo (f + 1) true staging file flushed xs.length inchunk flushed
          (some v :: vt.map some) = _
        simp only [ffExtendGo]
        have hseg := take_mapSome_noneFree (v :: vt)
          (min (some v :: vt.map some).length (staging.length - inchunk))
        simp only [List.map_cons] at hseg
        rw [hseg]
        simp only [Bool.false_eq_true, if_false, List.length_cons, List.length_map]
        rw [htf]
        have hdrop : ((some v :: vt.map some).drop R).length = vt.length + 1 - R := by
          simp
        rw [if_neg (by simp only [hdrop]; omega)]
        have hmap : ((some v :: vt.map some).take R).map (fun o => o.getD 0) =
            (v :: vt).take R := by
          have := take_mapSome_getD (v :: vt) R
          simp only [List.map_cons] at this
          exact this
        rw [hmap]
        have hrest : (some v :: vt.map some).drop R = ((v :: vt).drop R).map some := by
          have := drop_mapSome (v :: vt) R
          simp only [List.map_cons] at this
          exact this
        rw [hrest]
        have hposeq : flushed + (inchunk + R) = xs1.length := by omega
        have hidxeq : xs.length + R = xs1.length := by omega
        rw [hposeq, hidxeq]
        simpa using heq

theorem ffExtend_inv (st : FFState) (vs xs : List Int) (h : FFinv st xs)
    (hfs : 0 < st.staging.length) :
    (st.extendPy (vs.map some)).2 = .ok () ∧
    FFinv (st.extendPy (vs.map some)).1 (xs ++ vs) ∧
    (st.extendPy (vs.map some)).1.staging.length = st.staging.length := by
  obtain ⟨hopen, hidx, hcnt, hic, hpos, hfl, hfh, hstg⟩ := h
  obtain ⟨stg', fl', ic', fd', heq, hlen', hic', hcnt', hfile', hnone', hstg'⟩ :=
    ffExtendGo_ok (2 * (vs.map some).length + 2) vs xs st.staging st.file
      st.indexinchunk st.indexflushed hfs hic (by omega) hfl hfh hstg
      (by
        simp only [List.length_map]
        split <;> omega)
  have hstep : st.extendPy (vs.map some) =
      ({ st with staging := stg', file := fl', pos := fd',
                 index := xs.length + vs.length, indexinchunk := ic',
                 indexflushed := fd' }, .ok ()) := by
    simp only [FFState.extendPy]
    rw [hopen, hpos, hidx, heq]
  rw [hstep]
  refine ⟨rfl, ⟨hopen, ?_, ?_, ?_, ?_, ?_, ?_, ?_⟩, ?_⟩
  · show xs.length + vs.length = (xs ++ vs).length
    simp
  · show fd' + ic' = xs.length + vs.length
    omega
  · show ic' ≤ stg'.length
    exact hic'
  · show fd' = fd'
    rfl
  · intro k hk
    exact hfile' k hk
  · intro k hk
    exact hnone' k hk
  · exact hstg'
  · show stg'.length = st.staging.length
    omega

theorem ffElems_of_inv (st : FFState) (xs : List Int) (h : FFinv st xs) :
    st.elems = xs := by
  obtain ⟨hopen, hidx, hcnt, hic, hpos, hfl, hfh, hstg⟩ := h
  unfold FFState.elems
  rw [hstg]
  have h1 : (List.range st.indexflushed).map (fun k => (st.file k).getD 0) =
      xs.take st.indexflushed := by
    apply List.ext_get
    · simp only [List.length_map, List.length_range, List.length_take]
      omega
    · intro i hi1 hi2
      simp only [List.length_map, List.length_range] at hi1
      rw [List.get_map, List.get_range]
      show (st.file i).getD 0 = _
      rw [hfl i (by omega)]
      show xs.getD i 0 = (xs.take st.indexflushed).get ⟨i, hi2⟩
      rw [List.getD_eq_getElem?_getD]
      rw [List.getElem?_eq_getElem (l := xs) (by omega)]
      simp only [Option.getD_some]
      rw [List.get_eq_getElem]
      exact (List.getElem_take _).symm
  rw [h1, List.take_append_drop]

theorem ffGetSliceFull_inv (st : FFState) (xs : List Int) (h : FFinv st xs)
    (hne : xs.length ≠ 0) :
    (st.getSlicePy none none none).2 = .ok (xs.map some) ∧
    (st.getSlicePy none none none).1.len = xs.length ∧
    FFinv (st.getSlicePy none none none).1 xs := by
  have hopen := h.1
  obtain ⟨hok, hinv1, hstg1, hic1, hfd1⟩ := ffFlush_inv st xs h
  have hidx1 : (st.flushPy).1.index = xs.length := hinv1.2.1
  have hstep : st.getSlicePy none none none =
      ((st.flushPy).1, .ok ((List.range (st.flushPy).1.index).map (st.flushPy).1.file)) := by
    simp only [FFState.getSlicePy, hopen, if_true]
    rw [if_neg (by rw [hidx1]; omega)]
  rw [hstep]
  refine ⟨?_, hidx1, hinv1⟩
  have harr : (List.range (st.flushPy).1.index).map (st.flushPy).1.file = xs.map some := by
    apply rangeMap_eq_mapSome _ _ _ hidx1
    intro k hk
    have hk2 : k < xs.length := by
      have := hidx1
      omega
    exact hinv1.2.2.2.2.2.1 k (by rw [hfd1, h.2.1]; exact hk2)
  rw [harr]

/-! ## FillableArray lemmas -/

theorem div_of_base (cs ci r : Nat) (hcs : 0 < cs) (hr : r < cs) :
    (ci * cs + r) / cs = ci := by
  rw [Nat.mul_comm, Nat.mul_add_div hcs, Nat.div_eq_of_lt hr]
  omega

theorem mod_of_base (cs ci r : Nat) (hr : r < cs) :
    (ci * cs + r) % cs = r := by
  rw [Nat.mul_comm, Nat.mul_add_mod, Nat.mod_eq_of_lt hr]

theorem getD_take_of_lt (l : List α) (n m : Nat) (d : α) (h : m < n) :
    (l.take n).getD m d = l.getD m d := by
  simp only [List.getD_eq_getElem?_getD, List.getElem?_take, if_pos h]

theorem setRange_getD_below (xs : List α) (i : Nat) (vs : List α) (j : Nat) (d : α)
    (hj : j < i) (hi : i + vs.length ≤ xs.length) :
    (setRange xs i vs).getD j d = xs.getD j d := by
  rw [← getD_take_of_lt (setRange xs i vs) (i + vs.length) j d (by omega)]
  rw [setRange_take_eq xs i vs hi]
  rw [List.getD_eq_getElem?_getD, List.getElem?_append]
  rw [if_pos (by simp only [List.length_take]; omega)]
  rw [List.getElem?_take, if_pos hj, ← List.getD_eq_getElem?_getD]

theorem setRange_getD_at (xs : List α) (i : Nat) (vs : List α) (j : Nat) (d : α)
    (hj : j < vs.length) (hle : i + vs.length ≤ xs.length) :
    (setRange xs i vs).getD (i + j) d = vs.getD j d := by
  rw [← getD_take_of_lt (setRange xs i vs) (i + vs.length) (i + j) d (by omega)]
  rw [setRange_take_eq xs i vs hle]
  rw [List.getD_append_right _ _ _ _ (by simp only [List.length_take]; omega)]
  congr 1
  simp only [List.length_take]
  omega

theorem growChunks_one (data : List (List (Option α))) (ci cs : Nat)
    (h : data.length = ci + 1) :
    growChunks data ci cs = data ++ [List.replicate cs none] := by
  unfold growChunks
  rw [h]
  have h2 : ci + 2 - (ci + 1) = 1 := by omega
  rw [h2, List.replicate_one]

theorem cellAt_set_chunk (data : List (List (Option α))) (cs ci : Nat)
    (newchunk : List (Option α)) (hci : ci < data.length) (k : Nat) :
    (((data.set ci newchunk).getD (k / cs) []).getD (k % cs) none) =
      if k / cs = ci then newchunk.getD (k % cs) none
      else ((data.getD (k / cs) []).getD (k % cs) none) := by
  by_cases h : k / cs = ci
  · rw [if_pos h, h]
    simp only [List.getD_eq_getElem?_getD]
    rw [List.getElem?_set_self hci]
    simp only [Option.getD_some]
  · rw [if_neg h]
    simp only [List.getD_eq_getElem?_getD]
    rw [List.getElem?_set_ne (fun he => h he.symm)]

theorem faExtendGo_inv : ∀ (fuel : Nat) (vs xs : List α)
    (data : List (List (Option α))) (ci ic cs : Nat),
    0 < cs →
    data.length = ci + 1 →
    (∀ c ∈ data, c.length = cs) →
    ic ≤ cs →
    ci * cs + ic = xs.length →
    (∀ k, k < xs.length → (data.getD (k / cs) []).getD (k % cs) none = xs[k]?) →
    vs.length + 1 ≤ fuel →
    ∃ data' ci' ic',
      faExtendGo fuel cs data ci ic vs = some (data', ci', ic') ∧
      data'.length = ci' + 1 ∧ (∀ c ∈ data', c.length = cs) ∧ ic' ≤ cs ∧
      ci' * cs + ic' = xs.length + vs.length ∧
      (∀ k, k < xs.length + vs.length →
        (data'.getD (k / cs) []).getD (k % cs) none = (xs ++ vs)[k]?) := by
  intro fuel
  induction fuel with
  | zero =>
    intro vs xs data ci ic cs _ _ _ _ _ _ hfuel
    omega
  | succ f ih =>
    intro vs xs data ci ic cs hcs hdl huni hic hlen hcells hfuel
    cases vs with
    | nil =>
      refine ⟨data, ci, ic, ?_, hdl, huni, hic, by simp [hlen], ?_⟩
      · show faExtendGo (f + 1) cs data ci ic [] = _
        simp [faExtendGo]
      · intro k hk
        simp only [List.length_nil, Nat.add_zero] at hk
        rw [List.append_nil]
        exact hcells k hk
    | cons v vt =>
      have hcilt : ci < data.length := by omega
      have hget : data.get? ci = some data[ci] := List.get?_eq_get hcilt
      set chunk := data[ci] with hchunkdef
      have hclen : chunk.length = cs := huni _ (List.getElem_mem hcilt)
      -- the post-reset triple (the source's `d1, c1, i1`)
      set d1 := if ic ≥ chunk.length then growChunks data ci cs else data with hd1def
      set c1 := if ic ≥ chunk.length then ci + 1 else ci with hc1def
      set i1 := if ic ≥ chunk.length then 0 else ic with hi1def
      have hgrow : growChunks data ci cs = data ++ [List.replicate cs none] :=
        growChunks_one _ _ _ hdl
      have hd1l : d1.length = c1 + 1 := by
        by_cases hfull : ic ≥ chunk.length
        · simp only [hd1def, hc1def, if_pos hfull, hgrow]
          simp only [List.length_append, List.length_cons, List.length_nil]
          omega
        · simp only [hd1def, hc1def, if_neg hfull]
          omega
      have hd1uni : ∀ c ∈ d1, c.length = cs := by
        intro c hc
        by_cases hfull : ic ≥ chunk.length
        · simp only [hd1def, if_pos hfull, hgrow] at hc
          rcases List.mem_append.mp hc with h1 | h1
          · exact huni c h1
          · rw [List.mem_singleton] at h1
            rw [h1, List.length_replicate]
        · simp only [hd1def, if_neg hfull] at hc
          exact huni c hc
      have hi1lt : i1 < cs := by
        by_cases hfull : ic ≥ chunk.length
        · simp only [hi1def, if_pos hfull]
          omega
        · simp only [hi1def, if_neg hfull]
          omega
      have hlen1 : c1 * cs + i1 = xs.length := by
        by_cases hfull : ic ≥ chunk.length
        · simp only [hc1def, hi1def, if_pos hfull, Nat.succ_mul]
          omega
        · simp only [hc1def, hi1def, if_neg hfull]
          omega
      have hcellsd1 : ∀ k, k < xs.length →
          (d1.getD (k / cs) []).getD (k % cs) none = xs[k]? := by
        intro k hk
        have hkdiv : k / cs < data.length := by
          rw [hdl]
          have : k / cs < ci + 1 := by
            rw [Nat.div_lt_iff_lt_mul hcs]
            calc k < xs.length := hk
            _ ≤ (ci + 1) * cs := by rw [Nat.succ_mul]; omega
          omega
        by_cases hfull : ic ≥ chunk.length
        · simp only [hd1def, if_pos hfull, hgrow]
          rw [List.getD_append _ _ _ _ hkdiv]
          exact hcells k hk
        · simp only [hd1def, if_neg hfull]
          exact hcells k hk
      have hc1lt : c1 < d1.length := by omega
      have hget2 : d1.get? c1 = some d1[c1] := List.get?_eq_get hc1lt
      set chunk2 := d1[c1] with hchunk2def
      have hc2len : chunk2.length = cs := hd1uni _ (List.getElem_mem hc1lt)
      set tofill := min (v :: vt).length (cs - i1) with htfdef
      have htfpos : 0 < tofill := by
        simp only [htfdef, List.length_cons]
        omega
      have htfle : tofill ≤ vt.length + 1 := by
        simp only [htfdef, List.length_cons]
        omega
      have htfle2 : i1 + tofill ≤ cs := by
        simp only [htfdef]
        omega
      have hseglen : ((v :: vt).take tofill).length = tofill := by
        simp only [List.length_take, List.length_cons]
        omega
      -- one unfolding of the loop
      have hstep : faExtendGo (f + 1) cs data ci ic (v :: vt) =
          faExtendGo f cs
            (d1.set c1 (setRange chunk2 i1 (((v :: vt).take tofill).map some)))
            c1 (i1 + tofill) ((v :: vt).drop tofill) := by
        simp only [faExtendGo, hget, hget2]
        rw [if_pos (by omega)]
      set d2 := d1.set c1 (setRange chunk2 i1 (((v :: vt).take tofill).map some)) with hd2def
      set xs1 := xs ++ (v :: vt).take tofill with hxs1def
      have hxs1len : xs1.length = xs.length + tofill := by
        simp only [hxs1def, List.length_append, hseglen]
      have hd2l : d2.length = c1 + 1 := by
        simp only [hd2def, List.length_set]
        omega
      have hd2uni : ∀ c ∈ d2, c.length = cs := by
        intro c hc
        rcases List.mem_or_eq_of_mem_set hc with hmem | heq
        · exact hd1uni c hmem
        · rw [heq, setRange_length, hc2len]
      have hlen2 : c1 * cs + (i1 + tofill) = xs1.length := by omega
      have hcellsd2 : ∀ k, k < xs1.length →
          (d2.getD (k / cs) []).getD (k % cs) none = xs1[k]? := by
        intro k hk
        simp only [hd2def]
        rw [cellAt_set_chunk _ cs _ _ hc1lt k]
        have hsr : i1 + (((v :: vt).take tofill).map some).length ≤ chunk2.length := by
          rw [List.length_map, hseglen, hc2len]
          omega
        by_cases hdiv : k / cs = c1
        · rw [if_pos hdiv]
          have hdm := Nat.div_add_mod k cs
          rw [hdiv] at hdm
          have hmulc : cs * c1 = c1 * cs := by ring
          have hmodlt : k % cs < i1 + tofill := by omega
          by_cases hmlt : k % cs < i1
          · have hklt : k < xs.length := by omega
            rw [setRange_getD_below _ _ _ _ _ hmlt hsr]
            have hch : chunk2.getD (k % cs) none =
                (d1.getD (k / cs) []).getD (k % cs) none := by
              rw [hdiv]
              congr 1
              rw [List.getD_eq_getElem?_getD, List.getElem?_eq_getElem hc1lt]
              rfl
            rw [hch, hcellsd1 k hklt]
            simp only [hxs1def]
            rw [List.getElem?_append, if_pos hklt]
          · push_neg at hmlt
            have hj : k % cs = i1 + (k % cs - i1) := by omega
            rw [hj, setRange_getD_at _ _ _ _ _ (by rw [List.length_map, hseglen]; omega) hsr]
            have hjlt : k % cs - i1 < tofill := by omega
            have hrhs : xs1[k]? = ((v :: vt).take tofill)[k % cs - i1]? := by
              simp only [hxs1def]
              rw [List.getElem?_append, if_neg (by omega)]
              congr 1
              omega
            rw [hrhs]
            have hlt2 : k % cs - i1 < ((v :: vt).take tofill).length := by
              rw [hseglen]
              omega
            rw [List.getD_eq_getElem?_getD, List.getElem?_map,
              List.getElem?_eq_getElem hlt2]
            simp
        · rw [if_neg hdiv]
          have hklt : k < xs.length := by
            by_contra hge
            apply hdiv
            have hr : k - xs.length < tofill := by omega
            have hkeq2 : k = c1 * cs + (i1 + (k - xs.length)) := by omega
            rw [hkeq2, div_of_base cs c1 _ hcs (by omega)]
          rw [hcellsd1 k hklt]
          simp only [hxs1def]
          rw [List.getElem?_append, if_pos hklt]
      have hfuel2 : ((v :: vt).drop tofill).length + 1 ≤ f := by
        simp only [List.length_drop, List.length_cons]
        simp only [List.length_cons] at hfuel
        omega
      obtain ⟨data', ci', ic', heq, hl', huni', hic', hlen', hcells'⟩ :=
        ih ((v :: vt).drop tofill) xs1 d2 c1 (i1 + tofill) cs hcs hd2l hd2uni
          (by omega) hlen2 hcellsd2 hfuel2
      refine ⟨data', ci', ic', by rw [hstep, heq], hl', huni', hic', ?_, ?_⟩
      · rw [hlen']
        simp only [hxs1len, List.length_drop, List.length_cons]
        omega
      · intro k hk
        have hxs2 : xs1 ++ (v :: vt).drop tofill = xs ++ v :: vt := by
          rw [hxs1def, List.append_assoc, List.take_append_drop]
        rw [← hxs2]
        apply hcells' k
        simp only [hxs1len, List.length_drop, List.length_cons]
        simp only [List.length_cons] at hk
        omega

theorem faExtend_inv (st : FAState α) (vs xs : List α) (h : FAinv st xs)
    (hcs : 0 < st.chunksize) :
    ∃ st', st.extend vs = some st' ∧ FAinv st' (xs ++ vs) ∧
      st'.chunksize = st.chunksize := by
  obtain ⟨hdl, huni, hic, hlen, hcells⟩ := h
  have hcells2 : ∀ k, k < xs.length →
      (st.data.getD (k / st.chunksize) []).getD (k % st.chunksize) none = xs[k]? := hcells
  obtain ⟨data', ci', ic', heq, hl', huni', hic', hlen', hcells'⟩ :=
    faExtendGo_inv (2 * vs.length + 2) vs xs st.data st.chunkindex st.indexinchunk
      st.chunksize hcs hdl huni hic hlen hcells2 (by omega)
  refine ⟨⟨st.chunksize, data', ic', ci'⟩, ?_,
    ⟨hl', huni', hic', ?_, fun k hk => hcells' k (by rw [List.length_append] at hk; exact hk)⟩,
    rfl⟩
  · simp only [FAState.extend, heq]
    rfl
  · show ci' * st.chunksize + ic' = (xs ++ vs).length
    simp only [List.length_append]
    omega

theorem pyGet_nat (xs : List α) (k : Nat) (hk : k < xs.length) :
    pyGet xs (k : Int) = some (xs.get ⟨k, hk⟩) := by
  have h0 : ¬ ((k : Int) < 0) := by omega
  have h1 : (0 : Int) ≤ (k : Int) ∧ (k : Int) < xs.length := ⟨by omega, by omega⟩
  simp only [pyGet, h0, if_false]
  rw [dif_pos h1]
  congr 1

/-- Well-formedness of a freshly constructed chunked-array fillable. -/
theorem fainv_init (α : Type) (cs : Nat) : FAinv (FAState.init α cs) [] := by
  refine ⟨rfl, ?_, Nat.zero_le _, by simp [FAState.init, FAState.len], fun k hk => absurd hk (by simp)⟩
  intro c hc
  simp only [FAState.init, List.mem_singleton] at hc
  rw [hc, List.length_replicate]
  rfl

theorem faAppend_inv (st : FAState α) (xs : List α) (v : α) (h : FAinv st xs)
    (hcs : 0 < st.chunksize) :
    ∃ st', st.append v = some st' ∧ FAinv st' (xs ++ [v]) ∧
      st'.chunksize = st.chunksize := by
  obtain ⟨hdl, huni, hic, hlen, hcells⟩ := h
  set cs := st.chunksize with hcsdef
  have hcilt : st.chunkindex < st.data.length := by omega
  have hget : st.data.get? st.chunkindex = some st.data[st.chunkindex] :=
    List.get?_eq_get hcilt
  set chunk := st.data[st.chunkindex] with hchunkdef
  have hclen : chunk.length = cs := huni _ (List.getElem_mem hcilt)
  have hlen' : st.chunkindex * cs + st.indexinchunk = xs.length := hlen
  have hdgetD : st.data.getD st.chunkindex [] = chunk := by
    rw [List.getD_eq_getElem?_getD, List.getElem?_eq_getElem hcilt]
    rfl
  have hcells2 : ∀ k, k < xs.length →
      (st.data.getD (k / cs) []).getD (k % cs) none = xs[k]? := hcells
  by_cases hfull : st.indexinchunk ≥ chunk.length
  · -- current chunk is full: allocate one new chunk, write at its slot 0
    have hiceq : st.indexinchunk = cs := by omega
    have hgrow : growChunks st.data st.chunkindex cs =
        st.data ++ [List.replicate cs none] := growChunks_one _ _ _ hdl
    have hget2 : (growChunks st.data st.chunkindex cs).get? (st.chunkindex + 1) =
        some (List.replicate cs none) := by
      rw [hgrow, List.get?_eq_getElem?, List.getElem?_append, if_neg (by omega), hdl]
      have h0 : st.chunkindex + 1 - (st.chunkindex + 1) = 0 := by omega
      rw [h0]
      rfl
    have hstep : st.append v = some ⟨cs,
        (growChunks st.data st.chunkindex cs).set (st.chunkindex + 1)
          ((List.replicate cs none).set 0 (some v)), 0 + 1, st.chunkindex + 1⟩ := by
      simp only [FAState.append, hget, if_pos hfull, hget2]
      rw [if_pos (by rw [List.length_replicate]; omega)]
    refine ⟨_, hstep, ⟨?_, ?_, by show 0 + 1 ≤ cs; omega, ?_, ?_⟩, rfl⟩
    · show ((growChunks st.data st.chunkindex cs).set (st.chunkindex + 1)
        ((List.replicate cs none).set 0 (some v))).length = (st.chunkindex + 1) + 1
      rw [List.length_set, hgrow]
      simp only [List.length_append, List.length_cons, List.length_nil, hdl]
    · intro c hc
      rcases List.mem_or_eq_of_mem_set hc with hmem | heq
      · rw [hgrow] at hmem
        rcases List.mem_append.mp hmem with h1 | h1
        · exact huni c h1
        · rw [List.mem_singleton] at h1
          rw [h1, List.length_replicate]
      · rw [heq, List.length_set, List.length_replicate]
    · show (st.chunkindex + 1) * cs + (0 + 1) = (xs ++ [v]).length
      rw [List.length_append, List.length_cons, List.length_nil, Nat.succ_mul]
      omega
    · intro k hk
      simp only [List.length_append, List.length_cons, List.length_nil] at hk
      show (((growChunks st.data st.chunkindex cs).set (st.chunkindex + 1)
          ((List.replicate cs none).set 0 (some v))).getD (k / cs) []).getD (k % cs) none =
        (xs ++ [v])[k]?
      rw [cellAt_set_chunk _ cs _ _
        (by rw [hgrow]; simp only [List.length_append, List.length_cons, List.length_nil]; omega) k]
      have hxslen : xs.length = st.chunkindex * cs + cs := by omega
      by_cases hdiv : k / cs = st.chunkindex + 1
      · rw [if_pos hdiv]
        have hdm := Nat.div_add_mod k cs
        rw [hdiv] at hdm
        have hmulc : cs * (st.chunkindex + 1) = st.chunkindex * cs + cs := by ring
        have hkeq : k = xs.length ∧ k % cs = 0 := by omega
        rw [hkeq.2]
        rw [List.getD_eq_getElem?_getD,
          List.getElem?_set_self (by rw [List.length_replicate]; omega)]
        rw [hkeq.1, List.getElem?_append, if_neg (by omega)]
        simp
      · rw [if_neg hdiv]
        have hklt : k < xs.length := by
          by_contra hge
          have hkeq : k = xs.length := by omega
          apply hdiv
          rw [hkeq, hxslen]
          have hre : st.chunkindex * cs + cs = (st.chunkindex + 1) * cs + 0 := by
            rw [Nat.succ_mul]
            omega
          rw [hre, div_of_base cs (st.chunkindex + 1) 0 hcs hcs]
        have hdivlt : k / cs < st.data.length := by
          rw [hdl]
          have : k / cs < st.chunkindex + 1 := by
            rw [Nat.div_lt_iff_lt_mul hcs]
            calc k < xs.length := hklt
            _ ≤ (st.chunkindex + 1) * cs := by rw [Nat.succ_mul]; omega
          omega
        rw [hgrow, List.getD_append _ _ _ _ hdivlt]
        rw [hcells2 k hklt, List.getElem?_append, if_pos hklt]
  · -- room in the current chunk: write in place
    push_neg at hfull
    have hstep : st.append v = some ⟨cs,
        st.data.set st.chunkindex (chunk.set st.indexinchunk (some v)),
        st.indexinchunk + 1, st.chunkindex⟩ := by
      have hnf : ¬ st.indexinchunk ≥ chunk.length := by omega
      have hlt2 : st.indexinchunk < chunk.length := by omega
      simp only [FAState.append, hget, if_neg hnf, if_pos hlt2]
    refine ⟨_, hstep, ⟨?_, ?_, by show st.indexinchunk + 1 ≤ cs; omega, ?_, ?_⟩, rfl⟩
    · show (st.data.set st.chunkindex (chunk.set st.indexinchunk (some v))).length =
        st.chunkindex + 1
      rw [List.length_set, hdl]
    · intro c hc
      rcases List.mem_or_eq_of_mem_set hc with hmem | heq
      · exact huni c hmem
      · rw [heq, List.length_set, hclen]
    · show st.chunkindex * cs + (st.indexinchunk + 1) = (xs ++ [v]).length
      simp only [List.length_append, List.length_cons, List.length_nil]
      omega
    · intro k hk
      simp only [List.length_append, List.length_cons, List.length_nil] at hk
      show ((st.data.set st.chunkindex (chunk.set st.indexinchunk (some v))).getD
          (k / cs) []).getD (k % cs) none = (xs ++ [v])[k]?
      rw [cellAt_set_chunk _ cs _ _ hcilt k]
      by_cases hdiv : k / cs = st.chunkindex
      · rw [if_pos hdiv]
        have hdm := Nat.div_add_mod k cs
        rw [hdiv] at hdm
        have hmulc : cs * st.chunkindex = st.chunkindex * cs := by ring
        by_cases hkx : k = xs.length
        · have hmod : k % cs = st.indexinchunk := by omega
          rw [hmod]
          rw [List.getD_eq_getElem?_getD, List.getElem?_set_self (by omega)]
          rw [hkx, List.getElem?_append, if_neg (by omega)]
          simp
        · have hklt : k < xs.length := by omega
          have hmodlt : k % cs < st.indexinchunk := by omega
          rw [List.getD_eq_getElem?_getD,
            List.getElem?_set_ne (by omega), ← List.getD_eq_getElem?_getD]
          have : chunk.getD (k % cs) none =
              (st.data.getD (k / cs) []).getD (k % cs) none := by
            rw [hdiv, hdgetD]
          rw [this, hcells2 k hklt, List.getElem?_append, if_pos hklt]
      · rw [if_neg hdiv]
        have hklt : k < xs.length := by
          by_contra hge
          have hkeq : k = xs.length := by omega
          apply hdiv
          rw [hkeq, ← hlen', div_of_base cs st.chunkindex st.indexinchunk hcs (by omega)]
        rw [hcells2 k hklt, List.getElem?_append, if_pos hklt]

theorem faAppendN_inv (vs : List α) : ∀ (st : FAState α) (xs : List α),
    FAinv st xs → 0 < st.chunksize →
    ∃ st', st.appendN vs = some st' ∧ FAinv st' (xs ++ vs) ∧
      st'.chunksize = st.chunksize := by
  induction vs with
  | nil =>
    intro st xs h hcs
    exact ⟨st, rfl, by simpa using h, rfl⟩
  | cons v vt ih =>
    intro st xs h hcs
    obtain ⟨st1, heq1, hinv1, hcs1⟩ := faAppend_inv st xs v h hcs
    obtain ⟨st2, heq2, hinv2, hcs2⟩ := ih st1 (xs ++ [v]) hinv1 (by omega)
    refine ⟨st2, ?_, by simpa using hinv2, by omega⟩
    simp only [FAState.appendN, List.foldlM_cons] at heq2 ⊢
    rw [heq1]
    simpa using heq2


/-- Well-formedness of a freshly constructed file-backed fillable. -/
theorem ffinv_init (fs : Nat) : FFinv (FFState.init fs) [] :=
  ⟨rfl, rfl, rfl, Nat.zero_le _, rfl,
    fun k hk => absurd (show k < 0 from hk) (by omega), fun _ _ => rfl, rfl⟩

theorem faGetSingle_inv (st : FAState α) (xs : List α) (h : FAinv st xs)
    (hcs : 0 < st.chunksize) (k : Nat) (hk : k < xs.length) :
    st.getSingle (k : Int) = .ok (xs[k]?) := by
  obtain ⟨hdl, huni, hic, hlen, hcells⟩ := h
  have hlen2 : st.len = xs.length := hlen
  have hkdiv : k / st.chunksize < st.data.length := by
    rw [hdl]
    have hlen' : st.chunkindex * st.chunksize + st.indexinchunk = xs.length := hlen
    have : k / st.chunksize < st.chunkindex + 1 := by
      rw [Nat.div_lt_iff_lt_mul hcs]
      calc k < xs.length := hk
      _ ≤ (st.chunkindex + 1) * st.chunksize := by rw [Nat.succ_mul]; omega
    omega
  have hmodlt : k % st.chunksize < (st.data.get ⟨k / st.chunksize, hkdiv⟩).length := by
    rw [huni _ (List.get_mem _ _ _)]
    exact Nat.mod_lt _ hcs
  have hni : ((k : Int) ≥ 0) := by omega
  have hbound : ¬¬(0 ≤ (k : Int) ∧ (k : Int) < (st.len : Int)) := by
    rw [hlen2]
    push_neg
    constructor <;> omega
  have hfd : Int.fdiv (k : Int) (st.chunksize : Int) = ((k / st.chunksize : Nat) : Int) :=
    (Int.ofNat_fdiv _ _).symm
  have hfm : Int.fmod (k : Int) (st.chunksize : Int) = ((k % st.chunksize : Nat) : Int) :=
    (Int.ofNat_fmod _ _).symm
  have hdgetD : st.data.getD (k / st.chunksize) [] =
      st.data.get ⟨k / st.chunksize, hkdiv⟩ := by
    rw [List.getD_eq_getElem?_getD, List.getElem?_eq_getElem hkdiv]
    rfl
  have hcell : st.cellAt k =
      (st.data.get ⟨k / st.chunksize, hkdiv⟩).get ⟨k % st.chunksize, hmodlt⟩ := by
    unfold FAState.cellAt
    rw [hdgetD]
    rw [List.getD_eq_getElem?_getD, List.getElem?_eq_getElem hmodlt]
    rfl
  simp only [FAState.getSingle, if_pos hni, if_neg hbound]
  rw [if_neg (by omega)]
  rw [hfd, hfm]
  simp only [pyGet_nat st.data (k / st.chunksize) hkdiv,
    pyGet_nat (st.data.get ⟨k / st.chunksize, hkdiv⟩) (k % st.chunksize) hmodlt]
  rw [← hcells k hk, hcell]

/-! ## FillableNumpyFile lemmas -/

theorem natDigits_ne_nil (n : Nat) : natDigits n ≠ [] := by
  unfold natDigits
  split
  · simp
  · intro hcontra
    exact absurd (List.append_eq_nil.mp hcontra).2 (by simp)

theorem natDigits_digits (n : Nat) : ∀ d ∈ natDigits n, 48 ≤ d ∧ d < 58 := by
  induction n using natDigits.induct with
  | case1 n h =>
    intro d hd
    rw [natDigits, dif_pos h] at hd
    rw [List.mem_singleton] at hd
    omega
  | case2 n h ih =>
    intro d hd
    rw [natDigits, dif_neg h] at hd
    rcases List.mem_append.mp hd with h1 | h1
    · exact ih d h1
    · rw [List.mem_singleton] at h1
      have := Nat.mod_lt n (show 0 < 10 by omega)
      omega

theorem natDigits_length_le (w : Nat) : ∀ n, n < 10 ^ w → 0 < w →
    (natDigits n).length ≤ w := by
  induction w with
  | zero => intro n _ h; omega
  | succ w ih =>
    intro n hn _
    by_cases h : n < 10
    · rw [natDigits, dif_pos h]
      simp only [List.length_singleton]
      omega
    · rw [natDigits, dif_neg h]
      simp only [List.length_append, List.length_singleton]
      have hw : 0 < w := by
        by_contra hw0
        have : w = 0 := by omega
        rw [this] at hn
        simp at hn
        omega
      have hdiv : n / 10 < 10 ^ w := by
        rw [Nat.div_lt_iff_lt_mul (by omega)]
        calc n < 10 ^ (w + 1) := hn
        _ = 10 ^ w * 10 := by ring
      have := ih (n / 10) hdiv hw
      omega

theorem pyFormatD_length (w n : Nat) (hw : 0 < w) (hn : n < 10 ^ w) :
    (pyFormatD w n).length = w := by
  unfold pyFormatD
  simp only [List.length_append, List.length_replicate]
  have := natDigits_length_le w n hn hw
  omega

theorem natDigits_foldl (n : Nat) : ∀ acc : Nat,
    (natDigits n).foldl (fun a b => a * 10 + (b - 48)) acc =
      acc * 10 ^ (natDigits n).length + n := by
  induction n using natDigits.induct with
  | case1 n h =>
    intro acc
    rw [natDigits, dif_pos h]
    simp only [List.foldl_cons, List.foldl_nil, List.length_singleton]
    have h48 : 48 + n - 48 = n := by omega
    rw [h48]
    ring
  | case2 n h ih =>
    intro acc
    rw [natDigits, dif_neg h]
    rw [List.foldl_append]
    rw [ih acc]
    simp only [List.foldl_cons, List.foldl_nil, List.length_append, List.length_singleton]
    have h48 : 48 + n % 10 - 48 = n % 10 := by omega
    rw [h48]
    have hdm := Nat.div_add_mod n 10
    have hpow : 10 ^ ((natDigits (n / 10)).length + 1) =
        10 ^ (natDigits (n / 10)).length * 10 := by ring
    rw [hpow]
    have : (acc * 10 ^ (natDigits (n / 10)).length + n / 10) * 10 + n % 10 =
        acc * (10 ^ (natDigits (n / 10)).length * 10) + (n / 10 * 10 + n % 10) := by
      ring
    rw [this]
    omega

theorem parseCountField_pyFormatD (w n : Nat) :
    parseCountField (pyFormatD w n) = n := by
  unfold parseCountField pyFormatD
  have hdigits : (natDigits n).dropWhile (fun b => b = 32) = natDigits n := by
    cases hnd : natDigits n with
    | nil => rfl
    | cons d dt =>
      have hd : 48 ≤ d ∧ d < 58 := natDigits_digits n d (by rw [hnd]; simp)
      rw [List.dropWhile_cons]
      rw [if_neg (by simp; omega)]
  have hdrop : ∀ k, (List.replicate k 32 ++ natDigits n).dropWhile
      (fun b => b = 32) = natDigits n := by
    intro k
    induction k with
    | zero => simpa using hdigits
    | succ k ih =>
      rw [List.replicate_succ, List.cons_append, List.dropWhile_cons]
      rw [if_pos (by simp)]
      exact ih
  rw [hdrop, natDigits_foldl n 0]
  simp

theorem writeBytes_in (f : Nat → Nat) (p : Nat) (bs : List Nat) (k : Nat)
    (h1 : p ≤ k) (h2 : k < p + bs.length) :
    writeBytes f p bs k = bs.getD (k - p) 0 := by
  simp only [writeBytes]
  rw [if_pos ⟨h1, h2⟩]

theorem writeBytes_out (f : Nat → Nat) (p : Nat) (bs : List Nat) (k : Nat)
    (h : k < p ∨ p + bs.length ≤ k) :
    writeBytes f p bs k = f k := by
  simp only [writeBytes]
  rw [if_neg (by omega)]

theorem readBytes_writeBytes (f : Nat → Nat) (p : Nat) (bs : List Nat) :
    readBytes (writeBytes f p bs) p bs.length = bs := by
  apply List.ext_get (by simp [readBytes])
  intro i h1 h2
  simp only [readBytes, List.length_map, List.length_range] at h1
  simp only [readBytes]
  rw [List.get_map, List.get_range]
  show writeBytes f p bs (p + i) = _
  rw [writeBytes_in _ _ _ _ (by omega) (by omega)]
  have hsub : p + i - p = i := by omega
  rw [hsub, List.getD_eq_getElem?_getD, List.getElem?_eq_getElem h1]
  simp

/-! ## Claim theorems (evaluations of the code at concrete failing inputs) -/

/-- C7: after every `FillableNumpyFile.flush`, the fixed-width decimal count
field at `lenpos` holds the current element count `index` (parsing it
recovers `length()` as of that flush), while every other header byte and all
previously flushed data bytes are untouched by the rewrite.  The hypotheses
are the format's own contract: at least one count digit, and a count below
`10^lendigits`. -/
theorem claim7_header_count_roundtrip (st : NFState)
    (hld : 0 < st.lendigits) (hidx : st.index < 10 ^ st.lendigits) :
    readBytes (st.flushN).file st.lenpos st.lendigits =
      pyFormatD st.lendigits st.index ∧
    parseCountField (readBytes (st.flushN).file st.lenpos st.lendigits) = st.index ∧
    (st.flushN).index = st.index ∧
    (st.flushN).indexflushed = st.index ∧
    (∀ p, p < st.lenpos → (st.flushN).file p = st.file p) ∧
    (∀ p, st.lenpos + st.lendigits ≤ p → p < st.datapos → (st.flushN).file p = st.file p) ∧
    (∀ p, st.datapos ≤ p → p < st.datapos + st.indexflushed * st.itemsize →
      (st.flushN).file p = st.file p) := by
  have hfmtlen : (pyFormatD st.lendigits st.index).length = st.lendigits :=
    pyFormatD_length _ _ hld hidx
  have hdp : st.lenpos + st.lendigits ≤ st.datapos := by
    unfold NFState.datapos
    omega
  have hfile : (st.flushN).file = writeBytes
      (writeBytes st.file (st.datapos + st.indexflushed * st.itemsize)
        ((st.staging.take st.indexinchunk).flatMap (encElem st.itemsize)))
      st.lenpos (pyFormatD st.lendigits st.index) := rfl
  have hread : readBytes (st.flushN).file st.lenpos st.lendigits =
      pyFormatD st.lendigits st.index := by
    rw [hfile]
    have h := readBytes_writeBytes
      (writeBytes st.file (st.datapos + st.indexflushed * st.itemsize)
        ((st.staging.take st.indexinchunk).flatMap (encElem st.itemsize)))
      st.lenpos (pyFormatD st.lendigits st.index)
    rw [hfmtlen] at h
    exact h
  refine ⟨hread, ?_, rfl, rfl, ?_, ?_, ?_⟩
  · rw [hread]
    exact parseCountField_pyFormatD _ _
  · intro p hp
    rw [hfile, writeBytes_out _ _ _ _ (by omega),
      writeBytes_out _ _ _ _ (by left; omega)]
  · intro p hp1 hp2
    rw [hfile, writeBytes_out _ _ _ _ (by rw [hfmtlen]; omega),
      writeBytes_out _ _ _ _ (by left; omega)]
  · intro p hp1 hp2
    rw [hfile, writeBytes_out _ _ _ _ (by rw [hfmtlen]; omega),
      writeBytes_out _ _ _ _ (by left; omega)]

/-- Witness for C7 at a concrete self-describing-file state: itemsize 1,
2-digit count field, one staged element, count 1. -/
theorem claim7_header_count_roundtrip_witness :
    0 < (⟨1, 2, 3, 4, (fun _ => 7), 1, 1, 0, [5]⟩ : NFState).lendigits ∧
    (⟨1, 2, 3, 4, (fun _ => 7), 1, 1, 0, [5]⟩ : NFState).index <
      10 ^ (⟨1, 2, 3, 4, (fun _ => 7), 1, 1, 0, [5]⟩ : NFState).lendigits ∧
    (readBytes ((⟨1, 2, 3, 4, (fun _ => 7), 1, 1, 0, [5]⟩ : NFState).flushN).file
        (⟨1, 2, 3, 4, (fun _ => 7), 1, 1, 0, [5]⟩ : NFState).lenpos 2 =
      pyFormatD 2 1 ∧
      parseCountField (readBytes ((⟨1, 2, 3, 4, (fun _ => 7), 1, 1, 0, [5]⟩ : NFState).flushN).file
        (⟨1, 2, 3, 4, (fun _ => 7), 1, 1, 0, [5]⟩ : NFState).lenpos 2) = 1 ∧
      ((⟨1, 2, 3, 4, (fun _ => 7), 1, 1, 0, [5]⟩ : NFState).flushN).index = 1 ∧
      ((⟨1, 2, 3, 4, (fun _ => 7), 1, 1, 0, [5]⟩ : NFState).flushN).indexflushed = 1 ∧
      (∀ p, p < (⟨1, 2, 3, 4, (fun _ => 7), 1, 1, 0, [5]⟩ : NFState).lenpos →
        ((⟨1, 2, 3, 4, (fun _ => 7), 1, 1, 0, [5]⟩ : NFState).flushN).file p = 7) ∧
      (∀ p, (⟨1, 2, 3, 4, (fun _ => 7), 1, 1, 0, [5]⟩ : NFState).lenpos + 2 ≤ p →
        p < (⟨1, 2, 3, 4, (fun _ => 7), 1, 1, 0, [5]⟩ : NFState).datapos →
        ((⟨1, 2, 3, 4, (fun _ => 7), 1, 1, 0, [5]⟩ : NFState).flushN).file p = 7) ∧
      (∀ p, (⟨1, 2, 3, 4, (fun _ => 7), 1, 1, 0, [5]⟩ : NFState).datapos ≤ p →
        p < (⟨1, 2, 3, 4, (fun _ => 7), 1, 1, 0, [5]⟩ : NFState).datapos + 0 * 1 →
        ((⟨1, 2, 3, 4, (fun _ => 7), 1, 1, 0, [5]⟩ : NFState).flushN).file p = 7)) :=
  ⟨by decide, by decide,
    claim7_header_count_roundtrip ⟨1, 2, 3, 4, (fun _ => 7), 1, 1, 0, [5]⟩
      (by decide) (by decide)⟩

/-- C9: on the file-backed fillable, every completed `append`, `extend`, and
`flush` preserves the state invariant: `indexflushed ≤ index`,
`index - indexflushed = indexinchunk`, and the file holds exactly the first
`indexflushed` committed elements starting at the data offset (and nothing
beyond them). -/
theorem claim9_file_invariant_preserved (st : FFState) (xs vs : List Int) (v : Int)
    (h : FFinv st xs) (hfs : 0 < st.staging.length) :
    ((st.appendPy v).2 = .ok () → FFinv (st.appendPy v).1 (xs ++ [v])) ∧
    FFinv (st.extendPy (vs.map some)).1 (xs ++ vs) ∧
    FFinv (st.flushPy).1 xs ∧
    (∀ (st' : FFState) (ys : List Int), FFinv st' ys →
      st'.indexflushed ≤ st'.index ∧
      st'.index - st'.indexflushed = st'.indexinchunk ∧
      (∀ k, k < st'.indexflushed → st'.file k = some (ys.getD k 0)) ∧
      (∀ k, st'.indexflushed ≤ k → st'.file k = none)) := by
  refine ⟨?_, (ffExtend_inv st vs xs h hfs).2.1, (ffFlush_inv st xs h).2.1, ?_⟩
  · intro hok
    by_cases hroom : st.indexinchunk < st.staging.length
    · exact (ffAppend_inv st xs v h hroom).2.1
    · exfalso
      have hfail : st.appendPy v = (st, .error .indexError) := by
        simp only [FFState.appendPy]
        rw [if_neg (by omega)]
      rw [hfail] at hok
      simp at hok
  · intro st' ys hi
    obtain ⟨_, hidx, hcnt, _, _, hfl, hfh, _⟩ := hi
    exact ⟨by omega, by omega, hfl, hfh⟩

/-- Witness for C9 at a concrete state: the freshly constructed file-backed
fillable with flushsize 2, appending 5 and extending with `[1,2,3]`. -/
theorem claim9_file_invariant_preserved_witness :
    FFinv (FFState.init 2) [] ∧ 0 < (FFState.init 2).staging.length ∧
    ((((FFState.init 2).appendPy 5).2 = .ok () →
        FFinv ((FFState.init 2).appendPy 5).1 ([] ++ [5])) ∧
      FFinv ((FFState.init 2).extendPy ([1,2,3].map some)).1 ([] ++ [1,2,3]) ∧
      FFinv ((FFState.init 2).flushPy).1 [] ∧
      (∀ (st' : FFState) (ys : List Int), FFinv st' ys →
        st'.indexflushed ≤ st'.index ∧
        st'.index - st'.indexflushed = st'.indexinchunk ∧
        (∀ k, k < st'.indexflushed → st'.file k = some (ys.getD k 0)) ∧
        (∀ k, st'.indexflushed ≤ k → st'.file k = none))) :=
  ⟨ffinv_init 2, by decide,
    claim9_file_invariant_preserved (FFState.init 2) [] [1,2,3] 5 (ffinv_init 2) (by decide)⟩

/-- C10: a slice with step 0 raises `ValueError` on every backing strategy —
the in-memory backings perform no mutation at all, and the file backing only
performs its initial flush, which changes neither the length nor the
committed contents. -/
theorem claim10_zero_step_rejected (α : Type) [Inhabited α]
    (stl : FLState α) (sta : FAState α) (stf : FFState) (xs : List Int)
    (s t : Option Int) (hinv : FFinv stf xs) :
    stl.getSlice s t (some 0) = .error .valueError ∧
    sta.getSlice s t (some 0) = .error .valueError ∧
    (stf.getSlicePy s t (some 0)).2 = .error .valueError ∧
    (stf.getSlicePy s t (some 0)).1.len = stf.len ∧
    (stf.getSlicePy s t (some 0)).1.elems = stf.elems := by
  have hflush : stf.getSlicePy s t (some 0) = ((stf.flushPy).1, .error .valueError) := by
    simp only [FFState.getSlicePy, hinv.1, if_true]
    by_cases hidx0 : (stf.flushPy).1.index = 0
    · rw [if_pos hidx0]
    · rw [if_neg hidx0]
      rcases s with _ | sv <;> rcases t with _ | tv <;> simp
  refine ⟨by simp [FLState.getSlice], by simp [FAState.getSlice], ?_, ?_, ?_⟩
  · rw [hflush]
  · rw [hflush]
    show (stf.flushPy).1.index = stf.index
    obtain ⟨_, _, _, _, hfd⟩ := ffFlush_inv stf xs hinv
    have := hfd
    simp only [FFState.flushPy, hinv.1, if_true]
  · rw [hflush]
    rw [ffElems_of_inv _ _ (ffFlush_inv stf xs hinv).2.1, ffElems_of_inv _ _ hinv]

/-- Witness for C10 at concrete states of all three backings. -/
theorem claim10_zero_step_rejected_witness :
    FFinv (FFState.init 2) [] ∧
    ((⟨[1,2], 2⟩ : FLState Int).getSlice (some 0) (some 5) (some 0) = .error .valueError ∧
      (FAState.init Int 4).getSlice (some 0) (some 5) (some 0) = .error .valueError ∧
      ((FFState.init 2).getSlicePy (some 0) (some 5) (some 0)).2 = .error .valueError ∧
      ((FFState.init 2).getSlicePy (some 0) (some 5) (some 0)).1.len = (FFState.init 2).len ∧
      ((FFState.init 2).getSlicePy (some 0) (some 5) (some 0)).1.elems = (FFState.init 2).elems) :=
  ⟨ffinv_init 2,
    claim10_zero_step_rejected Int ⟨[1,2], 2⟩ (FAState.init Int 4) (FFState.init 2) []
      (some 0) (some 5) (ffinv_init 2)⟩

/-- C2: for every backing strategy, appending `n` single elements one at a
time and then extending with a batch of `m` elements (no failures) leaves
`length() = n + m` and the committed elements are exactly the inputs in input
order, as observed through single-index reads (list and chunked-array
backings) and through the committed store / full-slice read (file backing). -/
theorem claim2_append_extend_roundtrip (α : Type) (xs ys : List α) (cs fs : Nat)
    (hcs : 0 < cs) (hfs : 0 < fs) (zs ws : List Int) :
    (((FLState.init α).appendN xs).extend ys).len = xs.length + ys.length ∧
    (∀ k, k < xs.length + ys.length →
      ((((FLState.init α).appendN xs).extend ys).getSingle (k : Int)).toOption =
        (xs ++ ys)[k]?) ∧
    (∃ st' : FAState α,
      ((FAState.init α cs).appendN xs).bind (fun s => s.extend ys) = some st' ∧
      st'.len = xs.length + ys.length ∧
      ∀ k, k < xs.length + ys.length → st'.getSingle (k : Int) = .ok ((xs ++ ys)[k]?)) ∧
    (((FFState.init fs).appendN zs).2 = .ok () ∧
      ((((FFState.init fs).appendN zs).1).extendPy (ws.map some)).2 = .ok () ∧
      ((((FFState.init fs).appendN zs).1).extendPy (ws.map some)).1.len =
        zs.length + ws.length ∧
      ((((FFState.init fs).appendN zs).1).extendPy (ws.map some)).1.elems = zs ++ ws ∧
      (0 < zs.length + ws.length →
        (((((FFState.init fs).appendN zs).1).extendPy (ws.map some)).1.getSlicePy
          none none none).2 = .ok ((zs ++ ws).map some))) := by
  refine ⟨?_, ?_, ?_, ?_⟩
  · rw [flRun_spec]
    rfl
  · intro k hk
    rw [flRun_spec]
    have hk2 : k < (xs ++ ys).length := by simpa using hk
    rw [FLState.getSingle_nat ⟨xs ++ ys, xs.length + ys.length⟩ k hk2]
    simp only [Except.toOption, List.getElem?_eq_getElem hk2]
    rfl
  · obtain ⟨st1, heq1, hinv1, hcs1⟩ := faAppendN_inv xs (FAState.init α cs) []
      (fainv_init α cs) hcs
    obtain ⟨st2, heq2, hinv2, hcs2⟩ := faExtend_inv st1 ys ([] ++ xs) hinv1
      (by rw [hcs1]; exact hcs)
    refine ⟨st2, ?_, ?_, ?_⟩
    · rw [heq1]
      simpa using heq2
    · have h2 := hinv2.2.2.2.1
      simpa using h2
    · intro k hk
      have h3 := faGetSingle_inv st2 (([] ++ xs) ++ ys) hinv2
        (by rw [hcs2, hcs1]; exact hcs) k (by simpa using hk)
      simpa using h3
  · have hroom : (FFState.init fs).indexinchunk < (FFState.init fs).staging.length := by
      show 0 < (List.replicate fs 0).length
      simpa using hfs
    obtain ⟨hok1, hinv1, hlen1, hroom1⟩ := ffAppendN_inv zs (FFState.init fs) []
      (ffinv_init fs) hroom
    obtain ⟨hok2, hinv2, hlen2⟩ := ffExtend_inv _ ws ([] ++ zs) hinv1
      (by rw [hlen1]; show 0 < (List.replicate fs 0).length; simpa using hfs)
    refine ⟨hok1, hok2, ?_, ?_, ?_⟩
    · have h4 := hinv2.2.1
      show _ = zs.length + ws.length
      simp only [FFState.len]
      rw [h4]
      simp
    · have h5 := ffElems_of_inv _ _ hinv2
      simpa using h5
    · intro hpos
      have h6 := (ffGetSliceFull_inv _ _ hinv2
        (by simp only [List.length_append, List.length_nil]; omega)).1
      simpa using h6

/-- Witness for C2 at concrete inputs: two appends then a three-element
extend on the in-memory backings (chunksize 4), three appends then a
two-element extend on the file backing (flushsize 2). -/
theorem claim2_append_extend_roundtrip_witness :
    (0 : Nat) < 4 ∧ (0 : Nat) < 2 ∧
    ((((FLState.init Int).appendN [1,2]).extend [3,4,5]).len =
        [1,2].length + [3,4,5].length ∧
      (∀ k, k < [1,2].length + [3,4,5].length →
        ((((FLState.init Int).appendN [1,2]).extend [3,4,5]).getSingle (k : Int)).toOption =
          ([1,2] ++ [3,4,5])[k]?) ∧
      (∃ st' : FAState Int,
        ((FAState.init Int 4).appendN [1,2]).bind (fun s => s.extend [3,4,5]) = some st' ∧
        st'.len = [1,2].length + [3,4,5].length ∧
        ∀ k, k < [1,2].length + [3,4,5].length →
          st'.getSingle (k : Int) = .ok (([1,2] ++ [3,4,5])[k]?)) ∧
      (((FFState.init 2).appendN [10,20,30]).2 = .ok () ∧
        ((((FFState.init 2).appendN [10,20,30]).1).extendPy ([40,50].map some)).2 = .ok () ∧
        ((((FFState.init 2).appendN [10,20,30]).1).extendPy ([40,50].map some)).1.len =
          [10,20,30].length + [40,50].length ∧
        ((((FFState.init 2).appendN [10,20,30]).1).extendPy ([40,50].map some)).1.elems =
          [10,20,30] ++ [40,50] ∧
        (0 < [10,20,30].length + [40,50].length →
          (((((FFState.init 2).appendN [10,20,30]).1).extendPy ([40,50].map some)).1.getSlicePy
            none none none).2 = .ok (([10,20,30] ++ [40,50]).map some)))) :=
  ⟨by decide, by decide,
    claim2_append_extend_roundtrip Int [1,2] [3,4,5] 4 2 (by decide) (by decide)
      [10,20,30] [40,50]⟩

/-- C8 counterexample: a record with one primitive field and one
list-of-primitive field yields THREE storage keys with list starts disabled
(the primitive's values, the list's stop offsets, and the list content's own
values fillable), not the two the claim states. -/
theorem claim8_record_yields_three_keys :
    (makefillables
      (.record none [("p", .prim none "x" (some (.intDt 4)) (some [])),
        ("l", .list none "st" "s" (.intDt 8) (.prim none "y" (some (.intDt 4)) (some [])))])
      false false []) =
      some [("x", (.intDt 4, [])), ("s", (.intDt 8, [])), ("y", (.intDt 4, []))] ∧
    ([("x", ((.intDt 4 : GDtype), ([] : List Nat))), ("s", (.intDt 8, [])),
        ("y", (.intDt 4, []))].length = 3) ∧
    (3 : Nat) ≠ 2 :=
  ⟨rfl, rfl, by decide⟩

/-- C8 (amended): for a record with one primitive field and one
list-of-primitive field whose storage names are pairwise distinct, the walk
registers exactly 3 fillables with list starts disabled (primitive values,
list stops, list-content values) and exactly 4 with them enabled; a masked
primitive node yields exactly two fillables — a boolean mask and the value
fillable. -/
theorem claim8_allocator_key_counts (pn sn stn cn mn : String)
    (dt1 dt2 dt3 : GDtype) (dm1 dm3 : List Nat)
    (h1 : pn ≠ sn) (h2 : pn ≠ cn) (h3 : sn ≠ cn) (h4 : pn ≠ stn) (h5 : sn ≠ stn)
    (h6 : stn ≠ cn) (h7 : mn ≠ pn) :
    (makefillables (.record none [("p", .prim none pn (some dt1) (some dm1)),
        ("l", .list none stn sn dt2 (.prim none cn (some dt3) (some dm3)))])
      false false []).map List.length = some 3 ∧
    (makefillables (.record none [("p", .prim none pn (some dt1) (some dm1)),
        ("l", .list none stn sn dt2 (.prim none cn (some dt3) (some dm3)))])
      true false []).map List.length = some 4 ∧
    makefillables (.prim (some mn) pn (some dt1) (some dm1)) false false [] =
      some [(mn, (.boolDt, [])), (pn, (dt1, dm1))] := by
  refine ⟨?_, ?_, ?_⟩
  · simp [makefillables, makefillablesFields, Gen.maskOf, dictInsert, h1, h2, h3, h4, h5, h6,
      Ne.symm h1, Ne.symm h2, Ne.symm h3, Ne.symm h4, Ne.symm h5, Ne.symm h6]
  · simp [makefillables, makefillablesFields, Gen.maskOf, dictInsert, h1, h2, h3, h4, h5, h6,
      Ne.symm h1, Ne.symm h2, Ne.symm h3, Ne.symm h4, Ne.symm h5, Ne.symm h6]
  · simp [makefillables, Gen.maskOf, dictInsert, h7, Ne.symm h7]

/-- Witness for the amended C8 at concrete distinct storage names. -/
theorem claim8_allocator_key_counts_witness :
    ("x" : String) ≠ "s" ∧
    ((makefillables (.record none [("p", .prim none "x" (some (.intDt 4)) (some [])),
        ("l", .list none "st" "s" (.intDt 8) (.prim none "y" (some (.intDt 4)) (some [])))])
      false false []).map List.length = some 3 ∧
    (makefillables (.record none [("p", .prim none "x" (some (.intDt 4)) (some [])),
        ("l", .list none "st" "s" (.intDt 8) (.prim none "y" (some (.intDt 4)) (some [])))])
      true false []).map List.length = some 4 ∧
    makefillables (.prim (some "m") "x" (some (.intDt 4)) (some [])) false false [] =
      some [("m", (.boolDt, [])), ("x", (.intDt 4, []))]) :=
  ⟨by decide,
    claim8_allocator_key_counts "x" "s" "st" "y" "m" (.intDt 4) (.intDt 8) (.intDt 4) [] []
      (by decide) (by decide) (by decide) (by decide) (by decide) (by decide) (by decide)⟩

/-- C1: slicing does not implement clamped-bounds slice semantics.  With a
4-element chunk size, after `extend([1,2,3,4,5,6,7])` the slice `[1:6:2]`
must select `[2,4,6]`; the chunked-array code sizes its output array with the
floor quotient `(6-1)//2 = 2` and returns only `[2,4]`, and the list-backed
code raises a broadcast `ValueError` assigning the 3-element Python slice
into its 2-element output array. -/
theorem claim1_slice_drops_last_element :
    ((FAState.init Int 4).extend [1,2,3,4,5,6,7]).map
        (fun st => st.getSlice (some 1) (some 6) (some 2)) =
      some (.ok [some 2, some 4]) ∧
    (Except.ok [some 2, some 4] : Except PyErr (List (Option Int))) ≠
      .ok [some 2, some 4, some 6] ∧
    ((FLState.init Int).extend [1,2,3,4,5,6,7]).getSlice (some 1) (some 6) (some 2) =
      .error .valueError := by
  refine ⟨rfl, by simp, rfl⟩

/-- C4: single-index get with a negative index on the chunked-array fillable
does not return the committed element.  After `extend([1,2,3,4,5,6,7])` with
chunksize 4, index `-1` normalizes to 6 and the committed element there is 7,
but the code computes `divmod(-1, 4) = (-1, 3)` and reads the uninitialized
cell 3 of the last chunk instead. -/
theorem claim4_negative_index_reads_wrong_cell :
    ((FAState.init Int 4).extend [1,2,3,4,5,6,7]).map (fun st => st.getSingle (-1)) =
      some (.ok none) ∧
    ((FAState.init Int 4).extend [1,2,3,4,5,6,7]).map (fun st => st.getSingle 6) =
      some (.ok (some 7)) := by
  exact ⟨rfl, rfl⟩

/-- C5: single-index get on the file-backed fillable always raises
`NameError`: line 389 evaluates the unbound name `index` (the parameter is
called `value`), before any bounds check or read, whether or not the handle
is open — in particular for the in-range index 0 after `append(5)`. -/
theorem claim5_single_index_name_error :
    (∀ (st : FFState) (i : Int), (st.getSinglePy i).2 = .error .nameError) ∧
    ((((FFState.init 8192).appendPy 5).1).getSinglePy 0).2 = .error .nameError := by
  exact ⟨fun st i => rfl, rfl⟩

/-- C6: `close` is not idempotent.  After `append(5)` and a first `close()`
(which flushes and succeeds), a second `close()` calls `flush`, whose write
on the already-closed handle raises `ValueError`; the file contents are
nevertheless unchanged by the failed second call. -/
theorem claim6_double_close_raises :
    ((((FFState.init 2).appendPy 5).1).closePy).2 = .ok () ∧
    (((((FFState.init 2).appendPy 5).1).closePy).1.closePy).2 = .error .valueError ∧
    (((((FFState.init 2).appendPy 5).1).closePy).1.closePy).1 =
      ((((FFState.init 2).appendPy 5).1).closePy).1 := by
  exact ⟨rfl, rfl, rfl⟩

/-- C3: retry after a failed `extend` is not safe on the file-backed
fillable.  With flushsize 2, `extend([10,20,#bad])` flushes `[10,20]` to the
file, then fails converting the third value, leaving visible length 0 and no
committed content — but also leaving the seek position at byte offset 2.
Retrying with `append(30); append(40)` flushes at that stale position, so the
readback is `[10,20]` (the failed call's data), whereas the same two appends
without the failed call yield `[30,40]`. -/
theorem claim3_file_retry_corrupts :
    ((FFState.init 2).extendPy [some 10, some 20, none]).2 = .error .valueError ∧
    (((FFState.init 2).extendPy [some 10, some 20, none]).1).len = 0 ∧
    (((FFState.init 2).extendPy [some 10, some 20, none]).1).elems = [] ∧
    ((((((FFState.init 2).extendPy [some 10, some 20, none]).1).appendPy 30).1.appendPy
        40).1.getSlicePy none none none).2 = .ok [some 10, some 20] ∧
    (((((FFState.init 2).appendPy 30).1.appendPy 40).1).getSlicePy none none none).2 =
      .ok [some 30, some 40] ∧
    (Except.ok [some (10 : Int), some 20] : Except PyErr (List (Option Int))) ≠
      .ok [some 30, some 40] := by
  refine ⟨rfl, rfl, by decide, rfl, rfl, by simp⟩

end FillCol
